import Mathlib

/-!
# dyndump — formal verification of the core library against its specification

A shallow embedding, in Lean 4, of the parts of the `dyndump` Go library that
the specification's claims are about:

* `limitCalc` / `Fetcher.calcLimit` (dyndump.go) — batch-size heuristics;
* `hashCalc` and the reorder buffer (hashes fold in part-number order);
* `S3Writer` (s3writer.go) — chunked upload, metadata totals and aggregate hash;
* `S3Reader` (s3reader.go) — error latching and end-of-list integrity checks;
* `Loader` (loader.go) — conditional puts, skip counting, worker error handling;
* `S3Deleter` (s3deleter.go) — part-key matching and delete/metadata ordering;
* `SimpleEncoder` / `SimpleDecoder` (json.go) — the item JSON codec.

Go byte strings are modelled as `List Nat`, Go `int`/`int64` as `Int` or `Nat`
(the translation notes where the distinction matters), Go `float64` arithmetic
as `ℚ` with explicit truncation (the concrete instances proved here round the
same way in both).  SHA-256 itself is kept abstract: every definition that
hashes takes the hash function as an explicit parameter, since the claims
concern how hashes are combined, not the compression function.
-/

namespace Dyndump

/-- Byte strings (`[]byte` in Go). -/
abbrev ByteL := List Nat

/-- Lowercase hex digit of a nibble, as an ASCII code (`%x` formatting). -/
def hexDigit (n : Nat) : Nat :=
  if n < 10 then 48 + n else 87 + n

/-- One byte rendered as two lowercase hex ASCII codes, as Go's `%x` does for
each byte of a `[]byte`. -/
def hexByte (b : Nat) : List Nat :=
  [hexDigit (b / 16 % 16), hexDigit (b % 16)]

/-- Go `fmt.Sprintf("%x", bs)` for a byte slice: the concatenation of the
two-digit lowercase hex of each byte, as ASCII codes. -/
def hexBytes (bs : ByteL) : ByteL :=
  (bs.map hexByte).flatten

/-- ASCII newline, the separator `fmt.Fprintln`/`"%x\n"` append. -/
def nl : Nat := 10

/-! ## limitCalc (dyndump.go) — ring of recent item sizes

```go
type limitCalc struct {
        m         sync.Mutex
        itemSizes []int
        offset    int64
}
```
The mutex only serialises access and has no sequential content. -/

structure LimitCalc where
  itemSizes : List Int
  offset : Nat
  deriving Repr, DecidableEq

/-- Go `newLimitCalc(size)` — `make([]int, size)` zero-fills. -/
def newLimitCalc (size : Nat) : LimitCalc :=
  { itemSizes := List.replicate size 0, offset := 0 }

/-- Go `limitCalc.addSize`:
```go
lc.itemSizes[lc.offset%int64(len(lc.itemSizes))] = size
lc.offset++
``` -/
def LimitCalc.addSize (lc : LimitCalc) (size : Int) : LimitCalc :=
  { itemSizes := lc.itemSizes.set (lc.offset % lc.itemSizes.length) size
    offset := lc.offset + 1 }

/-- Insertion of an `Int` into a list, preserving `≤`-sortedness. -/
def insertSorted (x : Int) : List Int → List Int
  | [] => [x]
  | y :: ys => if x ≤ y then x :: y :: ys else y :: insertSorted x ys

/-- Ascending sort of a list of `Int`s (what `sort.Ints` produces). -/
def sortInts (l : List Int) : List Int :=
  l.foldr insertSorted []

/-- Go `limitCalc.median`:
```go
if lc.offset < int64(len(lc.itemSizes)) {
        return -1
}
sort.Ints(lc.itemSizes)
return lc.itemSizes[len(lc.itemSizes)/2] // close enough to median
```
`sort.Ints` sorts the stored slice **in place**, so the call both returns a
value and mutates the receiver; the returned pair is (result, new state). -/
def LimitCalc.median (lc : LimitCalc) : Int × LimitCalc :=
  if lc.offset < lc.itemSizes.length then (-1, lc)
  else
    let sorted := sortInts lc.itemSizes
    (sorted.getD (lc.itemSizes.length / 2) 0, { lc with itemSizes := sorted })

/-! ## Fetcher.calcLimit (dyndump.go)

```go
func (f *Fetcher) calcLimit() (newLimit int) {
        desiredCapacity := f.ReadCapacity / float64(f.MaxParallel)
        medianSize := f.limitCalc.median()
        if medianSize <= 0 {
                return -1 // not enough data
        }
        itemsPer4k := float64(4096) / float64(medianSize)
        newLimit = int(itemsPer4k * desiredCapacity)
        if !f.ConsistentRead {
                newLimit *= 2
        }
        if newLimit < 1 {
                newLimit = 1
        }
        return newLimit
}
```
`float64` division and multiplication are modelled over `ℚ`; `int(x)`
truncates toward zero. -/

/-- Go's `int(x)` conversion from a float: truncation toward zero. -/
def goTrunc (q : ℚ) : Int :=
  if 0 ≤ q then ⌊q⌋ else -⌊-q⌋

/-- The fields of `Fetcher` that `calcLimit` reads. -/
structure Fetcher where
  readCapacity : ℚ
  maxParallel : Nat
  consistentRead : Bool
  limitCalc : LimitCalc

/-- Go `Fetcher.calcLimit`, returning the limit together with the post-call
`limitCalc` state (`median` sorts the ring in place). -/
def Fetcher.calcLimit (f : Fetcher) : Int × LimitCalc :=
  let desiredCapacity : ℚ := f.readCapacity / (f.maxParallel : ℚ)
  let medianSize := f.limitCalc.median.1
  let lc := f.limitCalc.median.2
  if medianSize ≤ 0 then (-1, lc)
  else
    let itemsPer4k : ℚ := 4096 / (medianSize : ℚ)
    let newLimit := goTrunc (itemsPer4k * desiredCapacity)
    let newLimit' := if !f.consistentRead then newLimit * 2 else newLimit
    (if newLimit' < 1 then 1 else newLimit', lc)

/-! ## S3Reader (s3reader.go)

Errors surfaced by the reader.  Modelled as an inductive so that the distinct
`fmt.Errorf` messages of the source stay distinguishable. -/

inductive ReadErr where
  /-- Error `"part %s hash mismatch expected=%s actual=%s"` -/
  | partMismatch (key : String) (expected actual : ByteL)
  /-- Error `"incomplete restore; expected %d parts, found %d"` -/
  | incompleteRestore (expected found : Int)
  /-- Error `"corrupt restore; expected final hash of %s, got %s"` -/
  | corruptRestore (expected actual : ByteL)
  /-- an error returned by `GetObject` / `ListObjectsPages` / the pipe -/
  | transport (msg : String)
  deriving Repr, DecidableEq

/-- The `Metadata` descriptor (metadata.go) as the rest of the code reads and
writes it.  The base fields are from the `Metadata` struct under src.

Modelled from the spec: the repository revision of `metadata.go` declaring the
`hash` and `last_hashed` fields is absent from src (only their uses in
`S3Writer.completePart`, `S3Reader.reader` and the tests are present); spec §6
fixes them as the aggregate hash string and the last-contiguous-part-hashed
counter, so `hash : ByteL` (an ASCII string of hex digits) and
`lastHashed : Int` are added here with Go zero values as defaults.
Times are opaque to every claim and carried as `Nat`. -/
structure Metadata where
  tableName : String := ""
  tableARN : String := ""
  status : String := ""
  type : String := ""
  startTime : Nat := 0
  endTime : Option Nat := none
  uncompressedBytes : Int := 0
  compressedBytes : Int := 0
  itemCount : Int := 0
  partCount : Int := 0
  hash : ByteL := []
  lastHashed : Int := 0
  deriving Repr, DecidableEq

/-- The sequential content of `S3Reader.Read`'s receiver: the latched error
and the stream of outcomes the pipe will deliver to successive reads (each a
byte count plus an optional error, produced by the `reader` goroutine at the
far end of the pipe). -/
structure S3ReaderSt where
  err : Option ReadErr
  pipeReads : List (Nat × Option ReadErr)

/-- Go `S3Reader.Read` (s3reader.go):
```go
func (r *S3Reader) Read(p []byte) (n int, err error) {
        if r.err != nil {
                return 0, err
        }
        ...
        n, err = r.r.Read(p)
        if err != nil {
                r.err = err
        }
        return n, err
}
```
Note the guard returns the **named return value** `err`, which is still its
zero value `nil` at that point — not the latched `r.err`.  The model mirrors
that faithfully. -/
def S3ReaderSt.read (r : S3ReaderSt) : (Nat × Option ReadErr) × S3ReaderSt :=
  match r.err with
  | some _ => ((0, none), r)
  | none =>
    match r.pipeReads with
    | [] => ((0, none), r)
    | (n, e) :: rest => ((n, e), { err := e, pipeReads := rest })

/-- The end-of-list integrity checks of `S3Reader.reader` (s3reader.go), run
after `ListObjectsPages` returns without the pipe having been closed early:

```go
if md.PartCount > 0 && partCount != md.PartCount {
        r.w.CloseWithError(fmt.Errorf("incomplete restore; ..."))
        return
}
if !r.SkipIntegrityCheck && md.Hash != "" {
        hstr := fmt.Sprintf("%x", aggHash.Sum(nil))
        if md.LastHashed == md.PartCount && hstr != md.Hash {
                r.w.CloseWithError(fmt.Errorf("corrupt restore; ..."))
                return
        }
}
r.w.Close()
```
`sha256` is the abstract hash function, `aggAcc` the bytes fed to `aggHash`
while parts streamed, `partCount` the number of parts seen.  The result is
the error the pipe is closed with (`none` = clean close). -/
def readerEndChecks (sha256 : ByteL → ByteL) (skipIntegrityCheck : Bool)
    (md : Metadata) (partCount : Int) (aggAcc : ByteL) : Option ReadErr :=
  if 0 < md.partCount ∧ partCount ≠ md.partCount then
    some (ReadErr.incompleteRestore md.partCount partCount)
  else if ¬skipIntegrityCheck ∧ md.hash ≠ [] then
    let hstr := hexBytes (sha256 aggAcc)
    if md.lastHashed = md.partCount ∧ hstr ≠ md.hash then
      some (ReadErr.corruptRestore md.hash hstr)
    else none
  else none

/-! ## Items and calcItemSize (dyndump.go)

An attribute value (`dynamodb.AttributeValue`) with the data-model invariant
that exactly one variant is inhabited (spec §3); the constructors follow the
cases of `calcAttrSize`'s switch.  Go byte strings inside values are `ByteL`;
Go maps are carried as association lists (key order models nothing). -/

inductive AttrVal where
  | B (b : ByteL)
  | BOOL (b : Bool)
  | BS (l : List ByteL)
  | L (l : List AttrVal)
  | M (m : List (String × AttrVal))
  | N (n : String)
  | NS (l : List String)
  | NULL (b : Bool)
  | S (s : String)
  | SS (l : List String)

/-- An item: a map from attribute name to value (association list). -/
abbrev Item := List (String × AttrVal)

mutual

/-- Go `calcAttrSize` (dyndump.go): byte length for strings/numbers/binary,
1 for bool/null, 3 plus recursive sizes for sets, lists and maps.  Go `len`
of a string counts UTF-8 bytes, hence `String.utf8ByteSize`.  The range
loops over nested lists and maps are the two mutual helpers. -/
def calcAttrSize : AttrVal → Nat
  | .B b => b.length
  | .BOOL _ => 1
  | .BS l => 3 + (l.map List.length).sum
  | .L l => 3 + calcAttrListSize l
  | .M m => 3 + calcAttrMapSize m
  | .N n => n.utf8ByteSize
  | .NS l => 3 + (l.map String.utf8ByteSize).sum
  | .NULL _ => 1
  | .S s => s.utf8ByteSize
  | .SS l => 3 + (l.map String.utf8ByteSize).sum

/-- Recursive size sum over a `L` list (the `for _, v := range av.L` loop). -/
def calcAttrListSize : List AttrVal → Nat
  | [] => 0
  | v :: rest => calcAttrSize v + calcAttrListSize rest

/-- Recursive size sum over a `M` map (the `for k, v := range av.M` loop). -/
def calcAttrMapSize : List (String × AttrVal) → Nat
  | [] => 0
  | (k, v) :: rest => k.utf8ByteSize + calcAttrSize v + calcAttrMapSize rest

end

/-- Go `calcItemSize` (dyndump.go): sum of name lengths plus value sizes. -/
def calcItemSize (item : Item) : Nat :=
  (item.map (fun kv => kv.1.utf8ByteSize + calcAttrSize kv.2)).sum

/-! ## Loader (loader.go) -/

/-- Outcome of one `PutItem` call, as the `Loader.load` worker distinguishes
them: success carrying `resp.ConsumedCapacity.CapacityUnits`, an
`awserr.Error` with code `ConditionalCheckFailedException`, or any other
error. -/
inductive PutResult where
  | ok (capacityUnits : ℚ)
  | condCheckFailed
  | err (e : String)

/-- The `dynamodb.PutItemInput` the worker builds for an item. -/
structure PutReq where
  tableName : String
  item : Item
  returnConsumedCapacity : String
  conditionExpression : Option String
  expressionAttributeNames : List (String × String)

/-- Request construction in `Loader.load` (loader.go):
```go
req := &dynamodb.PutItemInput{
        TableName: aws.String(ld.TableName),
        Item:      item,
        ReturnConsumedCapacity: aws.String("TOTAL"),
}
if !ld.AllowOverwrite {
        req.ConditionExpression = aws.String("attribute_not_exists(#K)")
        req.ExpressionAttributeNames = map[string]*string{
                "#K": aws.String(ld.HashKey),
        }
}
``` -/
def buildPutReq (tableName hashKey : String) (allowOverwrite : Bool)
    (item : Item) : PutReq :=
  { tableName := tableName
    item := item
    returnConsumedCapacity := "TOTAL"
    conditionExpression :=
      if !allowOverwrite then some ("attribute_not_exists(#K)") else none
    expressionAttributeNames :=
      if !allowOverwrite then [(("#K"), hashKey)] else [] }

/-- The loader's shared statistics counters (atomics; capacity ×10). -/
structure LoaderStats where
  itemsWritten : Int := 0
  itemsSkipped : Int := 0
  bytesWritten : Int := 0
  capacityUsed : Int := 0
  deriving Repr, DecidableEq

/-- One `Loader.load` worker's loop-carried state: the shared counters it has
contributed (modelled per worker; atomic adds commute) and `usedCapacity`,
the token count it will next request from the rate governor. -/
structure WorkerSt where
  stats : LoaderStats
  usedCapacity : Int
  deriving Repr, DecidableEq

/-- The body of `Loader.load`'s item case (loader.go):
```go
resp, err := ld.Dyn.PutItem(req)
if err != nil {
        if aerr, ok := err.(awserr.Error); ok {
                if aerr.Code() == "ConditionalCheckFailedException" {
                        atomic.AddInt64(&ld.itemsSkipped, 1)
                        itemSize := float64(calcItemSize(item))
                        usedCapacity = int64(math.Ceil(itemSize / 1000))
                        continue
                }
        }
        doneChan <- err
        return
}
usedCapacity = int64(math.Ceil(*resp.ConsumedCapacity.CapacityUnits))
atomic.AddInt64(&ld.itemsWritten, 1)
atomic.AddInt64(&ld.bytesWritten, int64(calcItemSize(item)))
atomic.AddInt64(&ld.capacityUsed, int64(*resp.ConsumedCapacity.CapacityUnits*10))
```
The `some e` result means the worker sends `e` to `doneChan` and exits. -/
def loadStep (item : Item) (res : PutResult) (st : WorkerSt) :
    WorkerSt × Option String :=
  match res with
  | .condCheckFailed =>
      ({ stats := { st.stats with itemsSkipped := st.stats.itemsSkipped + 1 }
         usedCapacity := ⌈(calcItemSize item : ℚ) / 1000⌉ }, none)
  | .err e => (st, some e)
  | .ok cap =>
      ({ stats := { st.stats with
           itemsWritten := st.stats.itemsWritten + 1
           bytesWritten := st.stats.bytesWritten + calcItemSize item
           capacityUsed := st.stats.capacityUsed + goTrunc (cap * 10) }
         usedCapacity := ⌈cap⌉ }, none)

/-- One worker's run over the items it receives from the channel, paired with
each put's outcome.  The worker processes every received item; the first
non-conditional error aborts it (sent to `doneChan`), otherwise it drains and
exits with `nil` when `stopNotify` fires after the reader finishes. -/
def loadWorker (st : WorkerSt) : List (Item × PutResult) → LoaderStats × Option String
  | [] => (st.stats, none)
  | (item, res) :: rest =>
    match loadStep item res st with
    | (st', none) => loadWorker st' rest
    | (st', some e) => (st'.stats, some e)

/-- Initial worker state: fresh counters, `usedCapacity := int64(1)`. -/
def initWorkerSt : WorkerSt := { stats := {}, usedCapacity := 1 }

/-- First-error-wins collection that `Loader.Run` (and `Fetcher.Run`) perform
over worker results: the first non-nil error is returned. -/
def firstErr : List (Option String) → Option String
  | [] => none
  | none :: rest => firstErr rest
  | some e :: _ => some e

/-- Pointwise sum of per-worker statistics contributions: the shared counters
are atomic integers, so the total is the sum of each worker's adds. -/
def addStats (a b : LoaderStats) : LoaderStats :=
  { itemsWritten := a.itemsWritten + b.itemsWritten
    itemsSkipped := a.itemsSkipped + b.itemsSkipped
    bytesWritten := a.bytesWritten + b.bytesWritten
    capacityUsed := a.capacityUsed + b.capacityUsed }

/-- A `Loader` run in which worker `i` received the items `wss[i]` (with put
outcomes) from the reader goroutine's handoff channel: the final shared
statistics and each worker's exit result. -/
def runLoader (wss : List (List (Item × PutResult))) :
    LoaderStats × List (Option String) :=
  let results := wss.map (loadWorker initWorkerSt)
  (results.foldl (fun acc r => addStats acc r.1) {}, results.map (·.2))

/-! ## S3Deleter (s3deleter.go) -/

/-- Key of the metadata object: `prefix + "-meta.json"`. -/
def s3MetaKey (pfx : String) : String := pfx ++ "-meta.json"

/-- Key prefix of part objects: `prefix + "-part-"`. -/
def s3PartPrefix (pfx : String) : String := pfx ++ "-part-"

/-- Decimal digit test (Go regexp `\d` = `[0-9]`). -/
def isDigit (c : Char) : Bool := '0' ≤ c && c ≤ '9'

/-- The part matcher `S3Deleter.Delete` compiles (s3deleter.go):
```go
isPart, err := regexp.Compile(fmt.Sprintf(`^%s\d{9}.json.gz$`, s3PartPrefix(d.pathPrefix)))
```
The two dots in `.json.gz` are **unescaped** regexp dots and match any
character.  The model assumes the path prefix itself contains no regexp
metacharacters (otherwise `regexp.Compile` would reinterpret it), so the
pattern is: the part prefix, nine digits, any character, `json`, any
character, `gz`, anchored at both ends. -/
def isPartMatch (pfx key : String) : Bool :=
  let pre := (s3PartPrefix pfx).data
  let k := key.data
  (k.take pre.length == pre) &&
  (let t := k.drop pre.length
   t.length == 17 &&
   (t.take 9).all isDigit &&
   ((t.drop 10).take 4 == ("json").data) &&
   (t.drop 15 == [Char.ofNat 103, Char.ofNat 122]))

/-- The matcher the specification describes: `<prefix>-part-<9 digits>.json.gz`
with the dots as literal characters.  Stated from the spec's words, for
comparison with `isPartMatch`, which is translated from the source. -/
def isPartKeySpec (pfx key : String) : Bool :=
  let pre := (s3PartPrefix pfx).data
  let k := key.data
  (k.take pre.length == pre) &&
  (let t := k.drop pre.length
   t.length == 17 &&
   (t.take 9).all isDigit &&
   (t.drop 9 == (".json.gz").data))

/-- Outcome of one `DeleteObjects` call: success, a request-level error, or a
response whose `Errors` slice is non-empty (first entry's key and message). -/
inductive DelRes where
  | ok
  | reqErr (e : String)
  | keyErr (key msg : String)
  deriving Repr, DecidableEq

/-- Errors `S3Deleter.Delete` can end with: the raw request error, or
`fmt.Errorf("Failed to delete key %q: %v", ...)` built from a per-key error. -/
inductive DelErr where
  | raw (e : String)
  | keyFailed (key msg : String)
  deriving Repr, DecidableEq

/-- Result of a modelled `S3Deleter.Delete` run. -/
structure DelOutcome where
  delcount : Int
  deletedKeys : List String
  err : Option DelErr
  isCompleted : Bool
  metaDeleted : Bool
  deriving Repr, DecidableEq

/-- The page callback loop of `S3Deleter.Delete` (s3deleter.go).  `pages` are
the listing pages (`page.Contents` key lists) that `ListObjectsPages` yields
for the part prefix, the last one flagged `lastPage`; `dres n` is the S3
service's response to the `n`-th `DeleteObjects` request.  `Abort` is never
called in the runs the claims describe, so `isAborted()` is `false`.
Returns (next call index, delcount, deleted keys, err, isCompleted). -/
def delPages (pfx : String) (dres : Nat → DelRes) (call : Nat) (count : Int)
    (dkeys : List String) : List (List String) →
    Nat × Int × List String × Option DelErr × Bool
  | [] => (call, count, dkeys, none, false)
  | page :: rest =>
    let lastPage := rest.isEmpty
    let matching := page.filter (fun k => isPartMatch pfx k)
    if matching.isEmpty then
      if lastPage then (call, count, dkeys, none, true)
      else delPages pfx dres call count dkeys rest
    else
      match dres call with
      | .reqErr e => (call + 1, count, dkeys, some (DelErr.raw e), false)
      | .keyErr k m => (call + 1, count, dkeys, some (DelErr.keyFailed k m), false)
      | .ok =>
        let count' := count + matching.length
        let dkeys' := dkeys ++ matching
        if lastPage then (call + 1, count', dkeys', none, true)
        else delPages pfx dres (call + 1) count' dkeys' rest

/-- Go `S3Deleter.Delete` (s3deleter.go): page through the part listing,
bulk-deleting matching keys, then — only when no error occurred and the last
page was reached — delete the metadata object with one more `DeleteObjects`
call (its outcome is `dres` at the next call index).  `lerr` is the error
`ListObjectsPages` itself returns (`s3err` in the source), surfaced before
the metadata delete. -/
def runDelete (pfx : String) (pages : List (List String)) (dres : Nat → DelRes)
    (lerr : Option String) : DelOutcome :=
  let r := delPages pfx dres 0 0 [] pages
  let base : DelOutcome :=
    { delcount := r.2.1, deletedKeys := r.2.2.1, err := r.2.2.2.1,
      isCompleted := r.2.2.2.2, metaDeleted := false }
  match lerr with
  | some e => { base with err := some (DelErr.raw e) }
  | none =>
    if base.err = none ∧ base.isCompleted then
      match dres r.1 with
      | .ok => { base with metaDeleted := true }
      | .reqErr e => { base with err := some (DelErr.raw e) }
      | .keyErr k m => { base with err := some (DelErr.keyFailed k m) }
    else base

/-- Go `S3Deleter.Completed`: the number of parts deleted so far. -/
def DelOutcome.completed (o : DelOutcome) : Int := o.delcount

/-! ## hashCalc (dyndump.go) and the reorder buffer

Go `hashCalc` feeds a long-lived SHA-256 with `"%x\n"`-formatted part hashes
in strictly ascending part order; `reorder.Buffer` holds out-of-order
arrivals until the gap is filled.

Modelled from the spec: `reorder.Buffer` lives in the external module
`github.com/gwatts/gomisc/reorder`, whose source is not part of this
repository.  Spec §4.5/§9 fix its contract: a mapping from part index to
pending hash whose only mutation is "consume in ascending order while the
next key is present", calling the writer callback with each flushed
contiguous run.  The state below carries the buffer (pending entries plus
next expected index) fused with the callback's effects: `acc` is every byte
written to the long-lived hasher `hc.h`, and `hipart` is set to
`n + len(buf)` — the index one past the flushed run — whenever the callback
runs, starting at `-1`. -/

structure HashCalc where
  acc : ByteL
  next : Nat
  pending : List (Nat × ByteL)
  hipart : Int
  deriving Repr, DecidableEq

/-- Go `newHashCalc`: fresh SHA-256, `hipart: -1`, buffer starting at 0. -/
def newHashCalc : HashCalc := { acc := [], next := 0, pending := [], hipart := -1 }

/-- Removal of the first entry with the given key from an association list. -/
def removeKey (n : Nat) : List (Nat × ByteL) → List (Nat × ByteL)
  | [] => []
  | (k, v) :: rest => if k = n then rest else (k, v) :: removeKey n rest

/-- The reorder buffer's consume loop: while an entry for `next` is pending,
write `"%x\n"` of it to the hasher and advance.  `fuel` bounds the iteration
count (each step removes one pending entry, so `pending.length` suffices). -/
def drainLoop : Nat → Nat → List (Nat × ByteL) → ByteL →
    Nat × List (Nat × ByteL) × ByteL
  | 0, next, pending, acc => (next, pending, acc)
  | fuel + 1, next, pending, acc =>
    match pending.lookup next with
    | some v => drainLoop fuel (next + 1) (removeKey next pending) (acc ++ hexBytes v ++ [nl])
    | none => (next, pending, acc)

/-- Go `hashCalc.add(pn, h)` with `h.Sum(nil) = hsum`: stage the part hash at
index `pn` and let the buffer consume every contiguous run now available;
`hipart` becomes the new next index when anything was flushed. -/
def HashCalc.add (hc : HashCalc) (pn : Nat) (hsum : ByteL) : HashCalc :=
  let pending := (pn, hsum) :: hc.pending
  let r := drainLoop pending.length hc.next pending hc.acc
  { acc := r.2.2, next := r.1, pending := r.2.1
    hipart := if hc.next < r.1 then (r.1 : Int) else hc.hipart }

/-- Go `hashCalc.value`: `(hc.hipart, fmt.Sprintf("%x", hc.h.Sum(nil)))`. -/
def HashCalc.value (sha256 : ByteL → ByteL) (hc : HashCalc) : Int × ByteL :=
  (hc.hipart, hexBytes (sha256 hc.acc))

/-! ## S3Writer (s3writer.go) -/

/-- The writer state the metadata mutex guards: the live metadata descriptor
and the aggregate-hash calculator. -/
structure S3WriterSt where
  md : Metadata
  metaHash : HashCalc
  deriving Repr, DecidableEq

/-- Go `NewS3Writer` (s3writer.go): seeds the metadata, resetting status,
type, times and the four totals — but leaving the seed's `Hash` and
`LastHashed` untouched.  `StartTime = time.Now()` is opaque here and kept as
the seed's value. -/
def newS3Writer (seed : Metadata) : S3WriterSt :=
  { md := { seed with
      status := ("running"), type := ("full"), endTime := none,
      partCount := 0, uncompressedBytes := 0, compressedBytes := 0, itemCount := 0 }
    metaHash := newHashCalc }

/-- Go `S3Writer.completePart` (s3writer.go):
```go
w.metaHash.add(pn-1, partHash)
w.md.UncompressedBytes += uncompressedBytes
w.md.CompressedBytes += compressedBytes
w.md.ItemCount += itemCount
w.md.PartCount++
n, hstr := w.metaHash.value()
w.md.LastHashed = n
w.md.Hash = hstr
```
`partHashSum` is `partHash.Sum(nil)`, the digest of the part's uncompressed
bytes. -/
def completePart (sha256 : ByteL → ByteL) (w : S3WriterSt) (pn : Nat)
    (itemCount uncompressedBytes compressedBytes : Int) (partHashSum : ByteL) :
    S3WriterSt :=
  let mh := w.metaHash.add (pn - 1) partHashSum
  let v := mh.value sha256
  { metaHash := mh
    md := { w.md with
      uncompressedBytes := w.md.uncompressedBytes + uncompressedBytes
      compressedBytes := w.md.compressedBytes + compressedBytes
      itemCount := w.md.itemCount + itemCount
      partCount := w.md.partCount + 1
      lastHashed := v.1
      hash := v.2 } }

/-- One uploaded part, as `S3Writer.worker`'s `flush` assembles it: the
uncompressed bytes written since the last reset (`raw`, whose SHA-256 is the
part hash and whose length is `rawPendingLen`), the number of records
(`writeCount`), and the gzip file size uploaded (`fsize`). -/
structure Part where
  raw : ByteL
  items : Nat
  compressed : Nat
  deriving Repr, DecidableEq

/-- Go `S3Writer.worker` (s3writer.go) on the stream of records it receives
from the shared channel, in the no-failure run.  Each record is appended to
the gzip stream and the hasher; the flush-threshold test
`tmpfile.Seek(0,1) >= int64(w.PartSize)` compares the gzip **file size**,
which depends on compression and is not a function of the raw bytes, so it
is an oracle here: `oracle k = some c` means the test fired after record
`k` with the file `c` bytes big (any actual gzip behaviour is one such
oracle).  After the channel closes the tail is flushed only when
`rawPendingLen > 0`, with file size `tailSize`. -/
def workerGo (oracle : Nat → Option Nat) (tailSize : Nat) (idx : Nat)
    (pending : ByteL) (count : Nat) : List ByteL → List Part
  | [] => if pending.length > 0 then [{ raw := pending, items := count, compressed := tailSize }] else []
  | b :: rest =>
    let pending' := pending ++ b
    let count' := count + 1
    match oracle idx with
    | some c => { raw := pending', items := count', compressed := c } :: workerGo oracle tailSize (idx + 1) [] 0 rest
    | none => workerGo oracle tailSize (idx + 1) pending' count' rest

/-- A worker's full run: records in, parts flushed out. -/
def workerRun (oracle : Nat → Option Nat) (tailSize : Nat) (blocks : List ByteL) :
    List Part :=
  workerGo oracle tailSize 0 [] 0 blocks

/-- One worker's configuration and the records the shared channel handed it:
flush oracle, tail file size, and its block subsequence. -/
structure WorkerFeed where
  oracle : Nat → Option Nat
  tailSize : Nat
  blocks : List ByteL

/-- Pairing of each list element with its index, starting at `n`. -/
def indexFrom (n : Nat) : List α → List (Nat × α)
  | [] => []
  | a :: rest => (n, a) :: indexFrom (n + 1) rest

/-- Parts are numbered 1.. in flush order: `newKey`'s atomic counter. -/
def numberParts (parts : List Part) : List (Nat × Part) :=
  indexFrom 1 parts

/-- One part's `completePart` call, as `flush` makes it: part number, item
count, `rawPendingLen`, `fsize`, and the digest of the part's raw bytes. -/
def writeStep (sha256 : ByteL → ByteL) (w : S3WriterSt) (q : Nat × Part) : S3WriterSt :=
  completePart sha256 w q.1 (q.2.items) (q.2.raw.length) (q.2.compressed) (sha256 q.2.raw)

/-- The metadata-side effect of a whole run: every flushed part eventually
calls `completePart` (under the metadata mutex) with its part number, counts
and digest; `arrivals` is the order those calls win the mutex in. -/
def runWriter (sha256 : ByteL → ByteL) (seed : Metadata)
    (arrivals : List (Nat × Part)) : S3WriterSt :=
  arrivals.foldl (writeStep sha256) (newS3Writer seed)

/-- End of a successful `S3Writer.Run`: set `EndTime`, status `completed`. -/
def finishRun (w : S3WriterSt) (t : Nat) : S3WriterSt :=
  { w with md := { w.md with endTime := some t, status := ("completed") } }

/-- The canonical aggregate-hash input: `H(p1)'\n'H(p2)'\n'…` over the part
digests in ascending part order, hex-formatted. -/
def aggInput (hs : List ByteL) : ByteL :=
  (hs.map (fun h => hexBytes h ++ [nl])).flatten

/-! ## SimpleEncoder / SimpleDecoder (json.go)

Go `encoding/json` marshals `[]byte` as standard padded base64, so the codec
needs it.  Character codes: `'='` is 61. -/

/-- Standard base64 alphabet, index to ASCII code. -/
def b64Char (n : Nat) : Nat :=
  if n < 26 then 65 + n
  else if n < 52 then 97 + (n - 26)
  else if n < 62 then 48 + (n - 52)
  else if n = 62 then 43
  else 47

/-- Inverse alphabet lookup; `none` for a character outside the alphabet
(including `'='`, which only the padding patterns accept). -/
def b64Inv (c : Nat) : Option Nat :=
  if 65 ≤ c ∧ c ≤ 90 then some (c - 65)
  else if 97 ≤ c ∧ c ≤ 122 then some (c - 97 + 26)
  else if 48 ≤ c ∧ c ≤ 57 then some (c - 48 + 52)
  else if c = 43 then some 62
  else if c = 47 then some 63
  else none

/-- Standard padded base64 encoding of a byte string, as ASCII codes. -/
def b64Encode : ByteL → List Nat
  | [] => []
  | [a] => [b64Char (a / 4), b64Char (a % 4 * 16), 61, 61]
  | [a, b] => [b64Char (a / 4), b64Char (a % 4 * 16 + b / 16), b64Char (b % 16 * 4), 61]
  | a :: b :: c :: rest =>
    b64Char (a / 4) :: b64Char (a % 4 * 16 + b / 16) ::
    b64Char (b % 16 * 4 + c / 64) :: b64Char (c % 64) :: b64Encode rest

/-- Standard base64 decoding; `none` on anything malformed (padding is only
accepted in the final quantum, as Go's decoder enforces). -/
def b64Decode : List Nat → Option ByteL
  | [] => some []
  | c1 :: c2 :: c3 :: c4 :: rest =>
    if c3 = 61 ∧ c4 = 61 ∧ rest = [] then do
      let x ← b64Inv c1
      let y ← b64Inv c2
      pure [x * 4 + y / 16]
    else if c4 = 61 ∧ rest = [] then do
      let x ← b64Inv c1
      let y ← b64Inv c2
      let z ← b64Inv c3
      pure [x * 4 + y / 16, y % 16 * 16 + z / 4]
    else do
      let x ← b64Inv c1
      let y ← b64Inv c2
      let z ← b64Inv c3
      let w ← b64Inv c4
      let tail ← b64Decode rest
      pure ((x * 4 + y / 16) :: (y % 16 * 16 + z / 4) :: (z % 4 * 64 + w) :: tail)
  | _ => none

/-- A string from ASCII codes (base64 output is ASCII). -/
def asciiStr (l : List Nat) : String := ⟨l.map Char.ofNat⟩

/-- The codes of a string's characters. -/
def strCodes (s : String) : List Nat := s.data.map Char.toNat

/-- The JSON documents this codec produces and consumes.  The item format
needs no numbers or nulls: `N`/`NS` are carried as JSON strings and `NULL`
as a boolean.  Objects are association lists; Go map key order models
nothing on either side. -/
inductive Json where
  | str (s : String)
  | bool (b : Bool)
  | arr (l : List Json)
  | obj (l : List (String × Json))

mutual

/-- Go `toAttribute` (json.go): the deep copy of a `dynamodb.AttributeValue`
into the locally tagged `attributeValue` struct.  Field-for-field copy, with
`L` and `M` rebuilt recursively. -/
def toAttribute : AttrVal → AttrVal
  | .B b => .B b
  | .BOOL b => .BOOL b
  | .BS l => .BS l
  | .L l => .L (toAttributeList l)
  | .M m => .M (toAttributeMap m)
  | .N n => .N n
  | .NS l => .NS l
  | .NULL b => .NULL b
  | .S s => .S s
  | .SS l => .SS l

/-- The `for i := range src.L` rebuild loop of `toAttribute`. -/
def toAttributeList : List AttrVal → List AttrVal
  | [] => []
  | v :: rest => toAttribute v :: toAttributeList rest

/-- The `for k, v := range src.M` rebuild loop of `toAttribute`. -/
def toAttributeMap : List (String × AttrVal) → List (String × AttrVal)
  | [] => []
  | (k, v) :: rest => (k, toAttribute v) :: toAttributeMap rest

end

mutual

/-- Go `json.Marshal` of the `attributeValue` struct (json.go): every field
carries `json:",omitempty"`, so a `nil` or **empty** slice/map field is
omitted, while non-nil pointer fields (`BOOL`, `N`, `NULL`, `S`) are always
emitted.  With exactly one variant inhabited the result is a one-field
object, or the empty object when the inhabited field is an empty collection.
`[]byte` marshals as padded base64. -/
def marshalVal : AttrVal → Json
  | .B b => .obj (if b.isEmpty then [] else [(("B"), .str (asciiStr (b64Encode b)))])
  | .BOOL b => .obj [(("BOOL"), .bool b)]
  | .BS l => .obj (if l.isEmpty then [] else [(("BS"), .arr (l.map (fun b => .str (asciiStr (b64Encode b)))))])
  | .L l => .obj (if l.isEmpty then [] else [(("L"), .arr (marshalJList l))])
  | .M m => .obj (if m.isEmpty then [] else [(("M"), .obj (marshalJMap m))])
  | .N n => .obj [(("N"), .str n)]
  | .NS l => .obj (if l.isEmpty then [] else [(("NS"), .arr (l.map Json.str))])
  | .NULL b => .obj [(("NULL"), .bool b)]
  | .S s => .obj [(("S"), .str s)]
  | .SS l => .obj (if l.isEmpty then [] else [(("SS"), .arr (l.map Json.str))])

/-- Marshalling of a `L` list's elements. -/
def marshalJList : List AttrVal → List Json
  | [] => []
  | v :: rest => marshalVal v :: marshalJList rest

/-- Marshalling of a `M` map's entries. -/
def marshalJMap : List (String × AttrVal) → List (String × Json)
  | [] => []
  | (k, v) :: rest => (k, marshalVal v) :: marshalJMap rest

end

/-- Go `SimpleEncoder.WriteItem` (json.go): copy each attribute through
`toAttribute`, then `json.Encoder.Encode` the resulting map (one JSON object
per line; the line framing is below the AST level modelled here). -/
def writeItem (item : Item) : Json :=
  Json.obj (item.map (fun kv => (kv.1, marshalVal (toAttribute kv.2))))

/-- Decoding of a JSON array of strings (the `NS`/`SS` fields). -/
def decodeStrList : List Json → Option (List String)
  | [] => some []
  | .str s :: rest => do pure (s :: (← decodeStrList rest))
  | _ => none

/-- Decoding of a JSON array of base64 strings (the `BS` field). -/
def decodeB64List : List Json → Option (List ByteL)
  | [] => some []
  | .str s :: rest => do pure ((← b64Decode (strCodes s)) :: (← decodeB64List rest))
  | _ => none

mutual

/-- Go `json.Unmarshal` of one attribute value into
`dynamodb.AttributeValue`, read back through the one-variant data model: a
one-field object with a known tag yields that variant; the empty object (or
any other shape, which Go either rejects or decodes to a struct with no
variant inhabited) yields `none`. -/
def decodeVal : Json → Option AttrVal
  | .obj [(key, v)] =>
    if key = ("B") then
      match v with
      | .str s => (b64Decode (strCodes s)).map AttrVal.B
      | _ => none
    else if key = ("BOOL") then
      match v with
      | .bool b => some (.BOOL b)
      | _ => none
    else if key = ("BS") then
      match v with
      | .arr l => (decodeB64List l).map AttrVal.BS
      | _ => none
    else if key = ("L") then
      match v with
      | .arr l => (decodeJList l).map AttrVal.L
      | _ => none
    else if key = ("M") then
      match v with
      | .obj kvs => (decodeJMap kvs).map AttrVal.M
      | _ => none
    else if key = ("N") then
      match v with
      | .str s => some (.N s)
      | _ => none
    else if key = ("NS") then
      match v with
      | .arr l => (decodeStrList l).map AttrVal.NS
      | _ => none
    else if key = ("NULL") then
      match v with
      | .bool b => some (.NULL b)
      | _ => none
    else if key = ("S") then
      match v with
      | .str s => some (.S s)
      | _ => none
    else if key = ("SS") then
      match v with
      | .arr l => (decodeStrList l).map AttrVal.SS
      | _ => none
    else none
  | _ => none

/-- Decoding of a `L` array's elements. -/
def decodeJList : List Json → Option (List AttrVal)
  | [] => some []
  | j :: rest => do pure ((← decodeVal j) :: (← decodeJList rest))

/-- Decoding of a `M` object's entries. -/
def decodeJMap : List (String × Json) → Option (List (String × AttrVal))
  | [] => some []
  | (k, j) :: rest => do pure ((k, (← decodeVal j)) :: (← decodeJMap rest))

end

/-- Go `SimpleDecoder.ReadItem` (json.go): `json.Decoder.Decode` into a
`map[string]*dynamodb.AttributeValue`, read back through the one-variant
data model. -/
def readItem (j : Json) : Option Item :=
  match j with
  | .obj kvs => decodeJMap kvs
  | _ => none

mutual

/-- Values on which the codec can round-trip: every byte is an actual byte
(`< 256`, automatic for Go `[]byte`), and no inhabited collection variant is
empty (`omitempty` drops an empty `B`, `BS`, `NS`, `SS`, `L` or `M` field
entirely, which does not survive the round trip). -/
def wfVal : AttrVal → Bool
  | .B b => !b.isEmpty && b.all (fun x => decide (x < 256))
  | .BOOL _ => true
  | .BS l => !l.isEmpty && l.all (fun b => b.all (fun x => decide (x < 256)))
  | .L l => !l.isEmpty && wfList l
  | .M m => !m.isEmpty && wfMap m
  | .N _ => true
  | .NS l => !l.isEmpty
  | .NULL _ => true
  | .S _ => true
  | .SS l => !l.isEmpty

/-- Wellformedness of a list's elements. -/
def wfList : List AttrVal → Bool
  | [] => true
  | v :: rest => wfVal v && wfList rest

/-- Wellformedness of a map's values. -/
def wfMap : List (String × AttrVal) → Bool
  | [] => true
  | (_, v) :: rest => wfVal v && wfMap rest

end

/-- Wellformedness of an item: every attribute value is well-formed. -/
def wfItem (item : Item) : Bool :=
  item.all (fun kv => wfVal kv.2)

/-! ## Statement and proof-layer auxiliaries -/

/-- Every record written across a run, in channel-handout grouping. -/
def allBlocks (feeds : List WorkerFeed) : List ByteL :=
  (feeds.map WorkerFeed.blocks).flatten

/-- Every part flushed across a run (each worker's parts in flush order). -/
def allParts (feeds : List WorkerFeed) : List Part :=
  (feeds.map (fun f => workerRun f.oracle f.tailSize f.blocks)).flatten

/-- Reorder-buffer invariant core, relating a buffer state to the set `done`
of part indices added so far (part digests listed in `hs`): everything below
`next` is done and already folded into `acc` in ascending order, and
`pending` holds exactly the done indices at or above `next`, keyed uniquely,
with their digests. -/
def HCCore (hs : List ByteL) (done : Nat → Prop) (next : Nat)
    (pending : List (Nat × ByteL)) (acc : ByteL) : Prop :=
  (∀ i, i < next → done i) ∧
  acc = aggInput (hs.take next) ∧
  (pending.map Prod.fst).Nodup ∧
  (∀ p ∈ pending, done p.1 ∧ next ≤ p.1 ∧ p.1 < hs.length ∧ p.2 = hs.getD p.1 []) ∧
  (∀ k, done k → next ≤ k → k ∈ pending.map Prod.fst)

/-- Full `hashCalc` invariant: the core, plus the frontier is not yet done
and `hipart` is `-1` before the first flush and the frontier after. -/
def HCInv (hs : List ByteL) (done : Nat → Prop) (hc : HashCalc) : Prop :=
  HCCore hs done hc.next hc.pending hc.acc ∧
  ¬ done hc.next ∧
  hc.hipart = (if hc.next = 0 then (-1 : Int) else (hc.next : Int))

/-! # Theorems -/

/-! ## C10 — limitCalc / MedianWindow -/

/-- C10 (amended): with the 50-slot window, `median` returns `-1` until 50
sizes have been added; thereafter it returns the element at index
`⌊50/2⌋ = 25` of the **in-place** sort of the window — the stored window
becomes the sorted array, it is not a transient copy. -/
theorem median_inplace_spec (lc : LimitCalc) (h : lc.itemSizes.length = 50) :
    (lc.offset < 50 → lc.median = (-1, lc)) ∧
    (50 ≤ lc.offset →
      lc.median = ((sortInts lc.itemSizes).getD 25 0,
        { lc with itemSizes := sortInts lc.itemSizes })) := by
  constructor
  · intro hlt
    have : lc.offset < lc.itemSizes.length := by omega
    simp [LimitCalc.median, this]
  · intro hge
    have h1 : ¬ lc.offset < lc.itemSizes.length := by omega
    have h2 : ¬ lc.offset < 50 := by omega
    simp [LimitCalc.median, h, h1, h2]

/-- C10 witness: a full window of 7s has median 7 and the window is left as
the (here unchanged) sorted array. -/
theorem median_inplace_spec_witness :
    (⟨List.replicate 50 7, 60⟩ : LimitCalc).itemSizes.length = 50 ∧
    (⟨List.replicate 50 7, 60⟩ : LimitCalc).median =
      (7, ⟨List.replicate 50 7, 60⟩) := by
  refine ⟨by decide, ?_⟩
  have h := (median_inplace_spec ⟨List.replicate 50 7, 60⟩ (by decide)).2 (by decide)
  rw [h]
  decide

/-- C10 counterexample: after the sizes 49, 48, …, 0 have been observed the
ring holds exactly those values, but one `median()` call replaces the stored
window with its sorted permutation, so the stored window is no longer the
ring of the last 50 observed sizes (`sort.Ints` sorts in place; the claim's
"transient copy" does not happen). -/
theorem median_mutates_window_counterexample :
    (((((List.range 50).reverse.map Int.ofNat).foldl LimitCalc.addSize
        (newLimitCalc 50)).median).2).itemSizes ≠
      ((((List.range 50).reverse.map Int.ofNat).foldl LimitCalc.addSize
        (newLimitCalc 50))).itemSizes := by
  decide

/-! ## C4 — Fetcher.calcLimit -/

/-- C4 (amended): with `ReadCapacity=1000`, `MaxParallel=5` and a median
observed item size of 10 bytes, `calcLimit` returns
`int((4096/10) * (1000/5)) * 2 = 163,840` when `ConsistentRead` is off — the
code truncates only after the multiplication, it does not floor `4096/10`
first — and half that value, 81,920, when `ConsistentRead` is on. -/
theorem calcLimit_values (lc : LimitCalc) (h : lc.median.1 = 10) :
    (Fetcher.calcLimit ⟨1000, 5, false, lc⟩).1 = 163840 ∧
    (Fetcher.calcLimit ⟨1000, 5, true, lc⟩).1 = 81920 := by
  constructor <;>
  · rw [Fetcher.calcLimit]
    simp only [h]
    norm_num [goTrunc]

/-- C4 witness: a window of fifty 10s (median 10). -/
theorem calcLimit_values_witness :
    (⟨List.replicate 50 10, 50⟩ : LimitCalc).median.1 = 10 ∧
    (Fetcher.calcLimit ⟨1000, 5, false, ⟨List.replicate 50 10, 50⟩⟩).1 = 163840 ∧
    (Fetcher.calcLimit ⟨1000, 5, true, ⟨List.replicate 50 10, 50⟩⟩).1 = 81920 :=
  ⟨by decide, (calcLimit_values _ (by decide)).1, (calcLimit_values _ (by decide)).2⟩

/-- C4 counterexample: at exactly the claim's inputs the result is not the
claimed `floor(4096/10) * (1000/5) * 2 = 163,600`. -/
theorem calcLimit_not_163600 :
    (Fetcher.calcLimit ⟨1000, 5, false, ⟨List.replicate 50 10, 50⟩⟩).1 ≠ 163600 := by
  have h : (⟨List.replicate 50 10, 50⟩ : LimitCalc).median.1 = 10 := by decide
  rw [Fetcher.calcLimit]
  simp only [h]
  norm_num [goTrunc]

/-! ## C5 — S3Reader.Read error latching -/

/-- C5: evaluation of `S3Reader.Read` at a receiver whose previous call
latched an error.  The guard `if r.err != nil { return 0, err }` returns the
**zero-valued named return** `err`, i.e. `nil`, not the latched `r.err`: a
subsequent `Read` reports no error at all (and no data), contradicting both
the claim and the code's own documentation ("an error to be returned under
such conditions") — callers like `ioutil.ReadAll` then spin forever on
`(0, nil)` reads. -/
theorem read_latched_returns_nil :
    (S3ReaderSt.read
      { err := some (ReadErr.transport ("boom")), pipeReads := [(4, none)] }) =
    ((0, none),
      { err := some (ReadErr.transport ("boom")), pipeReads := [(4, none)] }) := rfl

/-! ## C6 — incomplete-restore check vs SkipIntegrityCheck -/

/-- C6 (amended): the incomplete-restore check is applied **regardless** of
`SkipIntegrityCheck`: whenever the metadata part count is positive and the
number of parts seen differs, the read aborts with the incomplete-restore
error; otherwise that error is never produced.  (Only the part-hash and
aggregate-hash comparisons are gated by `SkipIntegrityCheck`.) -/
theorem incomplete_restore_check_unconditional (sha256 : ByteL → ByteL)
    (skip : Bool) (md : Metadata) (partCount : Int) (agg : ByteL) :
    (0 < md.partCount ∧ partCount ≠ md.partCount →
      readerEndChecks sha256 skip md partCount agg =
        some (ReadErr.incompleteRestore md.partCount partCount)) ∧
    (md.partCount ≤ 0 ∨ partCount = md.partCount →
      ∀ e f, readerEndChecks sha256 skip md partCount agg ≠
        some (ReadErr.incompleteRestore e f)) := by
  constructor
  · intro h
    simp [readerEndChecks, h]
  · intro h e f
    have hno : ¬ (0 < md.partCount ∧ partCount ≠ md.partCount) := by
      rcases h with h | h
      · exact fun hc => absurd hc.1 (by omega)
      · exact fun hc => hc.2 h
    simp only [readerEndChecks, if_neg hno]
    split
    · split <;> simp
    · simp

/-- C6 witness: a two-part dump of which one part was seen aborts; a
matching count never yields the incomplete error. -/
theorem incomplete_restore_check_witness :
    (0 < (({ partCount := 2 } : Metadata).partCount) ∧ (1 : Int) ≠ ({ partCount := 2 } : Metadata).partCount) ∧
    readerEndChecks (fun _ => []) false { partCount := 2 } 1 [] =
      some (ReadErr.incompleteRestore 2 1) :=
  ⟨by decide,
   (incomplete_restore_check_unconditional (fun _ => []) false { partCount := 2 } 1 []).1 (by decide)⟩

/-- C6 counterexample: with `SkipIntegrityCheck = true` and a declared part
count of 2 but only 1 part observed, the reader still aborts with the
incomplete-restore error — the claim says the check is not applied in that
case. -/
theorem incomplete_check_fires_despite_skip :
    readerEndChecks (fun _ => []) true { partCount := 2 } 1 [] =
      some (ReadErr.incompleteRestore 2 1) := by
  rfl

/-! ## C7 — Loader conditional put handling -/

/-- C7: with `AllowOverwrite` false the request carries the condition
`attribute_not_exists(#K)` with `#K` bound to the hash key; a
conditional-check failure bumps `itemsSkipped`, leaves `itemsWritten`
alone, sets the next governor request to `ceil(calcItemSize(item)/1000)`
and is not an error; any other put error freezes that worker's stats,
aborts it with that error, and `Run`'s first-error-wins collection returns
it. -/
theorem loader_conditional_put_handling (tn hk : String) (item : Item)
    (st : WorkerSt) (rest : List (Item × PutResult)) (e : String)
    (pre post : List (Option String)) (hpre : ∀ x ∈ pre, x = none) :
    (buildPutReq tn hk false item).conditionExpression =
        some ("attribute_not_exists(#K)") ∧
    (buildPutReq tn hk false item).expressionAttributeNames = [(("#K"), hk)] ∧
    (loadStep item PutResult.condCheckFailed st).2 = none ∧
    (loadStep item PutResult.condCheckFailed st).1.stats.itemsSkipped =
        st.stats.itemsSkipped + 1 ∧
    (loadStep item PutResult.condCheckFailed st).1.stats.itemsWritten =
        st.stats.itemsWritten ∧
    (loadStep item PutResult.condCheckFailed st).1.usedCapacity =
        ⌈(calcItemSize item : ℚ) / 1000⌉ ∧
    loadWorker st ((item, PutResult.err e) :: rest) = (st.stats, some e) ∧
    firstErr (pre ++ some e :: post) = some e := by
  refine ⟨rfl, rfl, rfl, rfl, rfl, rfl, rfl, ?_⟩
  induction pre with
  | nil => rfl
  | cons x xs ih =>
    have hx : x = none := hpre x (List.mem_cons_self x xs)
    subst hx
    exact ih (fun y hy => hpre y (List.mem_cons_of_mem _ hy))

/-- C7 witness at a concrete item, state and error. -/
theorem loader_conditional_put_handling_witness :
    (buildPutReq ("t") ("id") false [(("id"), AttrVal.N ("7"))]).conditionExpression =
        some ("attribute_not_exists(#K)") ∧
    (loadStep [(("id"), AttrVal.N ("7"))] PutResult.condCheckFailed initWorkerSt).1.stats.itemsSkipped = 1 ∧
    firstErr ([none] ++ some ("boom") :: [none]) = some ("boom") := by
  have h := loader_conditional_put_handling ("t") ("id") [(("id"), AttrVal.N ("7"))]
    initWorkerSt [] ("boom") [none] [none] (by simp)
  refine ⟨h.1, ?_, h.2.2.2.2.2.2.2⟩
  rw [h.2.2.2.1]
  rfl

/-! ## C8 — Loader accounting invariant -/

/-- Unfolding of `loadWorker` on a received item (one loop iteration). -/
theorem loadWorker_cons (st : WorkerSt) (item : Item) (res : PutResult)
    (rest : List (Item × PutResult)) :
    loadWorker st ((item, res) :: rest) =
      match loadStep item res st with
      | (st', none) => loadWorker st' rest
      | (st', some e) => (st'.stats, some e) := rfl

/-- Per-worker accounting: a worker's written+skipped contributions are
bounded by the number of items it received, with equality when it exited
without error. -/
theorem loadWorker_accounting (l : List (Item × PutResult)) :
    ∀ st : WorkerSt,
      (loadWorker st l).1.itemsWritten + (loadWorker st l).1.itemsSkipped ≤
        st.stats.itemsWritten + st.stats.itemsSkipped + l.length ∧
      ((loadWorker st l).2 = none →
        (loadWorker st l).1.itemsWritten + (loadWorker st l).1.itemsSkipped =
          st.stats.itemsWritten + st.stats.itemsSkipped + l.length) := by
  induction l with
  | nil => intro st; simp [loadWorker]
  | cons p rest ih =>
    intro st
    obtain ⟨item, res⟩ := p
    have hlen : (((item, res) :: rest).length : Int) = (rest.length : Int) + 1 := by
      simp
    cases res with
    | ok cap =>
      have heq : loadWorker st ((item, PutResult.ok cap) :: rest) =
          loadWorker ((loadStep item (PutResult.ok cap) st).1) rest := rfl
      have hW : (loadStep item (PutResult.ok cap) st).1.stats.itemsWritten =
          st.stats.itemsWritten + 1 := rfl
      have hS : (loadStep item (PutResult.ok cap) st).1.stats.itemsSkipped =
          st.stats.itemsSkipped := rfl
      have h := ih ((loadStep item (PutResult.ok cap) st).1)
      rw [heq, hlen]
      rw [hW, hS] at h
      exact ⟨by have := h.1; omega, fun hn => by have := h.2 hn; omega⟩
    | condCheckFailed =>
      have heq : loadWorker st ((item, PutResult.condCheckFailed) :: rest) =
          loadWorker ((loadStep item PutResult.condCheckFailed st).1) rest := rfl
      have hW : (loadStep item PutResult.condCheckFailed st).1.stats.itemsWritten =
          st.stats.itemsWritten := rfl
      have hS : (loadStep item PutResult.condCheckFailed st).1.stats.itemsSkipped =
          st.stats.itemsSkipped + 1 := rfl
      have h := ih ((loadStep item PutResult.condCheckFailed st).1)
      rw [heq, hlen]
      rw [hW, hS] at h
      exact ⟨by have := h.1; omega, fun hn => by have := h.2 hn; omega⟩
    | err e =>
      have heq : loadWorker st ((item, PutResult.err e) :: rest) =
          (st.stats, some e) := rfl
      rw [heq, hlen]
      dsimp only
      exact ⟨by omega, fun hn => by simp at hn⟩

/-- Sum of per-entry `itemsWritten` over a fold of `addStats`. -/
theorem foldl_addStats_written (l : List (LoaderStats × Option String)) :
    ∀ a : LoaderStats,
      (l.foldl (fun acc r => addStats acc r.1) a).itemsWritten =
        a.itemsWritten + (l.map (fun r => r.1.itemsWritten)).sum := by
  induction l with
  | nil => intro a; simp
  | cons x xs ih =>
    intro a
    simp only [List.foldl_cons, List.map_cons, List.sum_cons]
    rw [ih (addStats a x.1)]
    simp [addStats]
    ring

/-- Sum of per-entry `itemsSkipped` over a fold of `addStats`. -/
theorem foldl_addStats_skipped (l : List (LoaderStats × Option String)) :
    ∀ a : LoaderStats,
      (l.foldl (fun acc r => addStats acc r.1) a).itemsSkipped =
        a.itemsSkipped + (l.map (fun r => r.1.itemsSkipped)).sum := by
  induction l with
  | nil => intro a; simp
  | cons x xs ih =>
    intro a
    simp only [List.foldl_cons, List.map_cons, List.sum_cons]
    rw [ih (addStats a x.1)]
    simp [addStats]
    ring

/-- Pointwise sum splitting over a map. -/
theorem sum_map_add (l : List α) (f g : α → Int) :
    (l.map (fun x => f x + g x)).sum = (l.map f).sum + (l.map g).sum := by
  induction l with
  | nil => simp
  | cons x xs ih => simp only [List.map_cons, List.sum_cons, ih]; ring

/-- Pointwise bound for list sums of integers. -/
theorem sum_map_le (l : List α) (f g : α → Int) (h : ∀ x ∈ l, f x ≤ g x) :
    (l.map f).sum ≤ (l.map g).sum := by
  induction l with
  | nil => simp
  | cons x xs ih =>
    simp only [List.map_cons, List.sum_cons]
    have h1 := h x (List.mem_cons_self x xs)
    have h2 := ih (fun y hy => h y (List.mem_cons_of_mem _ hy))
    omega

/-- C8: at loader termination, `itemsWritten + itemsSkipped` is at most the
number of items the workers received from the reader goroutine's handoff
channel (the channel is unbuffered, so everything the reader obtained from
the source and handed over was received; the reader obtains each item
before sending it, so received ≤ obtained), with equality when every worker
exited without error — which is the case whenever `Run` returns nil. -/
theorem loader_write_skip_accounting (wss : List (List (Item × PutResult))) :
    (runLoader wss).1.itemsWritten + (runLoader wss).1.itemsSkipped ≤
      (wss.map (fun w => (w.length : Int))).sum ∧
    ((∀ e ∈ (runLoader wss).2, e = none) →
      (runLoader wss).1.itemsWritten + (runLoader wss).1.itemsSkipped =
        (wss.map (fun w => (w.length : Int))).sum) := by
  have hW : (runLoader wss).1.itemsWritten =
      (wss.map (fun w => (loadWorker initWorkerSt w).1.itemsWritten)).sum := by
    simp only [runLoader]
    rw [foldl_addStats_written]
    simp [List.map_map, Function.comp_def]
  have hS : (runLoader wss).1.itemsSkipped =
      (wss.map (fun w => (loadWorker initWorkerSt w).1.itemsSkipped)).sum := by
    simp only [runLoader]
    rw [foldl_addStats_skipped]
    simp [List.map_map, Function.comp_def]
  have hsum : (runLoader wss).1.itemsWritten + (runLoader wss).1.itemsSkipped =
      (wss.map (fun w => (loadWorker initWorkerSt w).1.itemsWritten +
        (loadWorker initWorkerSt w).1.itemsSkipped)).sum := by
    rw [hW, hS, sum_map_add]
  constructor
  · rw [hsum]
    apply sum_map_le
    intro w _
    have h := (loadWorker_accounting w initWorkerSt).1
    simpa [initWorkerSt] using h
  · intro hall
    rw [hsum]
    have : ∀ w ∈ wss, (loadWorker initWorkerSt w).1.itemsWritten +
        (loadWorker initWorkerSt w).1.itemsSkipped = (w.length : Int) := by
      intro w hwm
      have hn : (loadWorker initWorkerSt w).2 = none := by
        apply hall
        simp only [runLoader, List.map_map]
        exact List.mem_map_of_mem _ hwm
      have h := (loadWorker_accounting w initWorkerSt).2 hn
      simpa [initWorkerSt] using h
    exact congrArg List.sum (List.map_congr_left this)

/-- C8 witness: one worker writes an item and skips an item, a second
writes one; all exit clean and `2 + 1 = 3` items were received. -/
theorem loader_write_skip_accounting_witness :
    (∀ e ∈ (runLoader [[(([]), PutResult.ok 1), (([]), PutResult.condCheckFailed)],
        [(([]), PutResult.ok 1)]]).2, e = none) ∧
    (runLoader [[(([]), PutResult.ok 1), (([]), PutResult.condCheckFailed)],
        [(([]), PutResult.ok 1)]]).1.itemsWritten +
      (runLoader [[(([]), PutResult.ok 1), (([]), PutResult.condCheckFailed)],
        [(([]), PutResult.ok 1)]]).1.itemsSkipped = 3 := by
  have hnone : ∀ e ∈ (runLoader [[(([]), PutResult.ok 1), (([]), PutResult.condCheckFailed)],
      [(([]), PutResult.ok 1)]]).2, e = none := by
    intro e he
    have hr : (runLoader [[(([]), PutResult.ok 1), (([]), PutResult.condCheckFailed)],
        [(([]), PutResult.ok 1)]]).2 = [none, none] := rfl
    rw [hr] at he
    simp at he
    exact he
  refine ⟨hnone, ?_⟩
  have h := (loader_write_skip_accounting [[(([]), PutResult.ok 1), (([]), PutResult.condCheckFailed)],
      [(([]), PutResult.ok 1)]]).2 hnone
  rw [h]
  rfl

/-! ## C9 — S3Deleter -/

/-- Success-path characterisation of the page loop: with every
`DeleteObjects` call succeeding and at least one page, the loop deletes
exactly the matching keys of every page, in order, errorlessly, and reaches
the last page. -/
theorem delPages_ok (pfx : String) (dres : Nat → DelRes)
    (hok : ∀ n, dres n = DelRes.ok) :
    ∀ (pages : List (List String)) (call : Nat) (count : Int) (dkeys : List String),
      pages ≠ [] →
      (delPages pfx dres call count dkeys pages).2.1 =
        count + (pages.flatten.filter (fun k => isPartMatch pfx k)).length ∧
      (delPages pfx dres call count dkeys pages).2.2.1 =
        dkeys ++ pages.flatten.filter (fun k => isPartMatch pfx k) ∧
      (delPages pfx dres call count dkeys pages).2.2.2.1 = none ∧
      (delPages pfx dres call count dkeys pages).2.2.2.2 = true := by
  intro pages
  induction pages with
  | nil => intro _ _ _ h; exact absurd rfl h
  | cons page rest ih =>
    intro call count dkeys _
    by_cases hrest : rest = []
    · subst hrest
      simp only [delPages, List.isEmpty_nil, List.flatten_cons, List.flatten_nil,
        List.append_nil, List.filter_append]
      by_cases hm : (page.filter (fun k => isPartMatch pfx k)).isEmpty
      · rw [if_pos hm]
        rw [List.isEmpty_iff] at hm
        simp [hm]
      · rw [if_neg hm, hok call]
        simp
    · have hre : rest.isEmpty = false := by
        cases rest with
        | nil => exact absurd rfl hrest
        | cons a b => rfl
      simp only [delPages, hre, List.flatten_cons, List.filter_append]
      by_cases hm : (page.filter (fun k => isPartMatch pfx k)).isEmpty
      · rw [if_pos hm]
        rw [List.isEmpty_iff] at hm
        have h := ih call count dkeys hrest
        simp only [Bool.false_eq_true, if_false, hm, List.nil_append]
        exact h
      · rw [if_neg hm, hok call]
        simp only [Bool.false_eq_true, if_false]
        have h := ih (call + 1) (count + (page.filter (fun k => isPartMatch pfx k)).length)
          (dkeys ++ page.filter (fun k => isPartMatch pfx k)) hrest
        refine ⟨?_, ?_, h.2.2⟩
        · rw [h.1, List.length_append]
          push_cast
          ring
        · rw [h.2.1, List.append_assoc]

/-- Whatever the delete outcomes, only keys matching the compiled part
pattern are ever passed to a bulk delete. -/
theorem delPages_only_matching (pfx : String) (dres : Nat → DelRes) :
    ∀ (pages : List (List String)) (call : Nat) (count : Int) (dkeys : List String),
      (∀ k ∈ dkeys, isPartMatch pfx k = true) →
      ∀ k ∈ (delPages pfx dres call count dkeys pages).2.2.1,
        isPartMatch pfx k = true := by
  intro pages
  induction pages with
  | nil => intro call count dkeys hd k hk; exact hd k hk
  | cons page rest ih =>
    intro call count dkeys hd k hk
    have hfilter : ∀ x ∈ page.filter (fun j => isPartMatch pfx j), isPartMatch pfx x = true :=
      fun x hx => List.of_mem_filter hx
    have happ : ∀ x ∈ dkeys ++ page.filter (fun j => isPartMatch pfx j),
        isPartMatch pfx x = true := by
      intro x hx
      rcases List.mem_append.1 hx with h | h
      · exact hd x h
      · exact hfilter x h
    simp only [delPages] at hk
    by_cases hm : (page.filter (fun j => isPartMatch pfx j)).isEmpty
    · rw [if_pos hm] at hk
      by_cases hl : rest.isEmpty
      · rw [if_pos hl] at hk
        exact hd k hk
      · rw [if_neg hl] at hk
        exact ih call count dkeys hd k hk
    · rw [if_neg hm] at hk
      cases hcall : dres call with
      | ok =>
        rw [hcall] at hk
        by_cases hl : rest.isEmpty
        · rw [if_pos hl] at hk
          exact happ k hk
        · rw [if_neg hl] at hk
          exact ih (call + 1) _ _ happ k hk
      | reqErr e => rw [hcall] at hk; exact hd k hk
      | keyErr a b => rw [hcall] at hk; exact hd k hk

/-- C9 (amended): with "matching" meaning the pattern the code actually
compiles — `<prefix>-part-<9 digits><any char>json<any char>gz`, the dots of
`.json.gz` being unescaped regexp dots — `S3Deleter.Delete` bulk-deletes
exactly the matching keys of the listing (siblings that do not match are
never passed to a delete), deletes the metadata key only when the final
page completed without error, and `Completed()` returns the number of part
objects deleted; a per-key delete error is surfaced as a fatal error and
prevents the metadata delete. -/
theorem deleter_deletes_matching_parts (pfx : String) (pages : List (List String))
    (dres : Nat → DelRes) (hok : ∀ n, dres n = DelRes.ok) (hne : pages ≠ []) :
    ((runDelete pfx pages dres none).deletedKeys =
        pages.flatten.filter (fun k => isPartMatch pfx k) ∧
      (runDelete pfx pages dres none).completed =
        (pages.flatten.filter (fun k => isPartMatch pfx k)).length ∧
      (runDelete pfx pages dres none).err = none ∧
      (runDelete pfx pages dres none).metaDeleted = true) ∧
    (∀ dres' : Nat → DelRes, ∀ k ∈ (runDelete pfx pages dres' none).deletedKeys,
        isPartMatch pfx k = true) ∧
    (∀ (dres' : Nat → DelRes) (de : DelErr),
      (delPages pfx dres' 0 0 [] pages).2.2.2.1 = some de →
        (runDelete pfx pages dres' none).err = some de ∧
        (runDelete pfx pages dres' none).metaDeleted = false) := by
  refine ⟨?_, ?_, ?_⟩
  · have h := delPages_ok pfx dres hok pages 0 0 [] hne
    have hm : dres (delPages pfx dres 0 0 [] pages).1 = DelRes.ok := hok _
    simp only [runDelete, DelOutcome.completed, h.2.2.1, h.2.2.2, h.1, h.2.1, hm]
    simp
  · intro dres' k hk
    have h := delPages_only_matching pfx dres' pages 0 0 [] (by intro k hk; simp at hk)
    simp only [runDelete] at hk
    by_cases hc : (delPages pfx dres' 0 0 [] pages).2.2.2.1 = none ∧
        (delPages pfx dres' 0 0 [] pages).2.2.2.2 = true
    · rw [if_pos] at hk
      · cases hd : dres' (delPages pfx dres' 0 0 [] pages).1 <;>
          · rw [hd] at hk
            exact h k hk
      · exact hc
    · rw [if_neg] at hk
      · exact h k hk
      · exact hc
  · intro dres' de hde
    simp only [runDelete, hde]
    have hc : ¬ ((some de = none) ∧
        (delPages pfx dres' 0 0 [] pages).2.2.2.2 = true) := by
      intro hc
      exact Option.noConfusion hc.1
    rw [if_neg hc]
    exact ⟨rfl, rfl⟩

/-- C9 witness: the spec's own end-to-end scenario — a 4-part dump listed in
two pages together with the unrelated sibling `p-other.json` under the same
prefix: exactly the four parts are deleted, the sibling survives, the
metadata is deleted, and `Completed() = 4`. -/
theorem deleter_deletes_matching_parts_witness :
    (runDelete ("p") [[("p-part-000000001.json.gz"), ("p-part-000000002.json.gz"), ("p-other.json")],
        [("p-part-000000003.json.gz"), ("p-part-000000004.json.gz")]] (fun _ => DelRes.ok) none).deletedKeys =
      [("p-part-000000001.json.gz"), ("p-part-000000002.json.gz"),
       ("p-part-000000003.json.gz"), ("p-part-000000004.json.gz")] ∧
    (runDelete ("p") [[("p-part-000000001.json.gz"), ("p-part-000000002.json.gz"), ("p-other.json")],
        [("p-part-000000003.json.gz"), ("p-part-000000004.json.gz")]] (fun _ => DelRes.ok) none).completed = 4 ∧
    (runDelete ("p") [[("p-part-000000001.json.gz"), ("p-part-000000002.json.gz"), ("p-other.json")],
        [("p-part-000000003.json.gz"), ("p-part-000000004.json.gz")]] (fun _ => DelRes.ok) none).metaDeleted = true := by
  have h := (deleter_deletes_matching_parts ("p")
    [[("p-part-000000001.json.gz"), ("p-part-000000002.json.gz"), ("p-other.json")],
     [("p-part-000000003.json.gz"), ("p-part-000000004.json.gz")]]
    (fun _ => DelRes.ok) (fun _ => rfl) (by decide)).1
  refine ⟨?_, ?_, h.2.2.2⟩
  · rw [h.1]; decide
  · rw [h.2.1]; decide

/-- C9 counterexample: the compiled pattern's unescaped dots make the key
`p-part-000000001xjsonxgz` — a sibling under the claim's literal
`<prefix>-part-<9 digits>.json.gz` reading — match, and the deleter deletes
it rather than leaving it intact. -/
theorem deleter_regex_dot_counterexample :
    isPartMatch ("p") ("p-part-000000001xjsonxgz") = true ∧
    isPartKeySpec ("p") ("p-part-000000001xjsonxgz") = false ∧
    (runDelete ("p") [[("p-part-000000001xjsonxgz")]] (fun _ => DelRes.ok) none).deletedKeys =
      [("p-part-000000001xjsonxgz")] := by
  refine ⟨by decide, by decide, by decide⟩

/-! ## C2 — the reorder buffer folds part hashes in ascending order -/

theorem lookup_eq_none_iff (n : Nat) (l : List (Nat × ByteL)) :
    l.lookup n = none ↔ n ∉ l.map Prod.fst := by
  induction l with
  | nil => simp
  | cons p rest ih =>
    obtain ⟨k, v⟩ := p
    by_cases h : n = k
    · subst h
      simp [List.lookup]
    · have hbeq : (n == k) = false := by simpa using h
      simp only [List.lookup, hbeq]
      simp [List.map_cons, h, ih]

theorem mem_of_lookup_eq_some {n : Nat} {v : ByteL} {l : List (Nat × ByteL)}
    (h : l.lookup n = some v) : (n, v) ∈ l := by
  induction l with
  | nil => simp [List.lookup] at h
  | cons p rest ih =>
    obtain ⟨k, w⟩ := p
    by_cases hk : n = k
    · subst hk
      simp [List.lookup] at h
      simp [h]
    · have hbeq : (n == k) = false := by simpa using hk
      simp only [List.lookup, hbeq] at h
      exact List.mem_cons_of_mem _ (ih h)

theorem removeKey_sublist (n : Nat) (l : List (Nat × ByteL)) :
    (removeKey n l).Sublist l := by
  induction l with
  | nil => simp [removeKey]
  | cons p rest ih =>
    obtain ⟨k, v⟩ := p
    by_cases h : k = n
    · simp only [removeKey, if_pos h]
      exact List.sublist_cons_self (k, v) rest
    · simp only [removeKey, if_neg h]
      exact ih.cons₂ (k, v)

theorem length_removeKey {n : Nat} {l : List (Nat × ByteL)}
    (h : n ∈ l.map Prod.fst) : (removeKey n l).length + 1 = l.length := by
  induction l with
  | nil => simp at h
  | cons p rest ih =>
    obtain ⟨k, v⟩ := p
    by_cases hk : k = n
    · simp [removeKey, hk]
    · simp only [removeKey, if_neg hk, List.length_cons]
      have hmem : n ∈ rest.map Prod.fst := by
        simp only [List.map_cons, List.mem_cons] at h
        rcases h with h | h
        · exact absurd h.symm hk
        · exact h
      rw [← ih hmem]

theorem mem_removeKey_iff {l : List (Nat × ByteL)} (hnd : (l.map Prod.fst).Nodup)
    (p : Nat × ByteL) (n : Nat) : p ∈ removeKey n l ↔ p ∈ l ∧ p.1 ≠ n := by
  induction l with
  | nil => simp [removeKey]
  | cons q rest ih =>
    obtain ⟨k, v⟩ := q
    have hnd' : (rest.map Prod.fst).Nodup := (List.nodup_cons.1 hnd).2
    have hknotin : k ∉ rest.map Prod.fst := (List.nodup_cons.1 hnd).1
    by_cases hk : k = n
    · subst hk
      simp only [removeKey, if_pos rfl]
      constructor
      · intro hp
        refine ⟨List.mem_cons_of_mem _ hp, ?_⟩
        intro hpk
        exact hknotin (hpk ▸ List.mem_map_of_mem Prod.fst hp)
      · intro ⟨hp, hpk⟩
        rcases List.mem_cons.1 hp with h | h
        · exact absurd (congrArg Prod.fst h) hpk
        · exact h
    · simp only [removeKey, if_neg hk]
      constructor
      · intro hp
        rcases List.mem_cons.1 hp with h | h
        · subst h
          exact ⟨List.mem_cons_self _ _, hk⟩
        · have := (ih hnd').1 h
          exact ⟨List.mem_cons_of_mem _ this.1, this.2⟩
      · intro ⟨hp, hpk⟩
        rcases List.mem_cons.1 hp with h | h
        · subst h
          exact List.mem_cons_self _ _
        · exact List.mem_cons_of_mem _ ((ih hnd').2 ⟨h, hpk⟩)

theorem aggInput_append (a b : List ByteL) :
    aggInput (a ++ b) = aggInput a ++ aggInput b := by
  simp [aggInput]

theorem aggInput_take_succ {hs : List ByteL} {n : Nat} (h : n < hs.length) :
    aggInput (hs.take (n + 1)) =
      aggInput (hs.take n) ++ hexBytes (hs.getD n []) ++ [nl] := by
  rw [List.take_succ, aggInput_append, List.getElem?_eq_getElem h]
  simp [aggInput, List.getD_eq_getElem?_getD, List.getElem?_eq_getElem h,
    List.append_assoc]

/-- The consume loop preserves the core invariant, never moves the frontier
backwards, and stops with the frontier not pending. -/
theorem drain_core (hs : List ByteL) (done : Nat → Prop) :
    ∀ (fuel next : Nat) (pending : List (Nat × ByteL)) (acc : ByteL),
      HCCore hs done next pending acc →
      pending.length ≤ fuel →
      HCCore hs done (drainLoop fuel next pending acc).1
          (drainLoop fuel next pending acc).2.1 (drainLoop fuel next pending acc).2.2 ∧
      next ≤ (drainLoop fuel next pending acc).1 ∧
      (drainLoop fuel next pending acc).1 ∉
        ((drainLoop fuel next pending acc).2.1.map Prod.fst) := by
  intro fuel
  induction fuel with
  | zero =>
    intro next pending acc hcore hlen
    have hp : pending = [] := List.eq_nil_of_length_eq_zero (Nat.le_zero.1 hlen)
    subst hp
    exact ⟨hcore, Nat.le_refl _, by simp [drainLoop]⟩
  | succ fuel ih =>
    intro next pending acc hcore hlen
    cases hl : pending.lookup next with
    | none =>
      have hndone := (lookup_eq_none_iff next pending).1 hl
      simp only [drainLoop, hl]
      exact ⟨hcore, Nat.le_refl _, hndone⟩
    | some v =>
      have hmem : (next, v) ∈ pending := mem_of_lookup_eq_some hl
      obtain ⟨h1, h2, h3, h4, h5⟩ := hcore
      have hv := h4 _ hmem
      have hkey : next ∈ pending.map Prod.fst := List.mem_map_of_mem Prod.fst hmem
      have hcore' : HCCore hs done (next + 1) (removeKey next pending)
          (acc ++ hexBytes v ++ [nl]) := by
        refine ⟨?_, ?_, ?_, ?_, ?_⟩
        · intro i hi
          rcases Nat.lt_succ_iff_lt_or_eq.1 hi with h | h
          · exact h1 i h
          · subst h; exact hv.1
        · rw [aggInput_take_succ hv.2.2.1, ← h2, ← hv.2.2.2]
        · exact h3.sublist ((removeKey_sublist next pending).map Prod.fst)
        · intro p hp
          have hmem' := (mem_removeKey_iff h3 p next).1 hp
          have hcond := h4 p hmem'.1
          refine ⟨hcond.1, ?_, hcond.2.2.1, hcond.2.2.2⟩
          have := hcond.2.1
          have := hmem'.2
          omega
        · intro k hk hnk
          have hin : k ∈ pending.map Prod.fst := h5 k hk (by omega)
          obtain ⟨p, hp, hpk⟩ := List.mem_map.1 hin
          have : p ∈ removeKey next pending :=
            (mem_removeKey_iff h3 p next).2 ⟨hp, by omega⟩
          exact hpk ▸ List.mem_map_of_mem Prod.fst this
      have hfuel : (removeKey next pending).length ≤ fuel := by
        have := length_removeKey hkey
        omega
      have hstep : drainLoop (fuel + 1) next pending acc =
          drainLoop fuel (next + 1) (removeKey next pending)
            (acc ++ hexBytes v ++ [nl]) := by
        simp [drainLoop, hl]
      rw [hstep]
      have h := ih (next + 1) (removeKey next pending) _ hcore' hfuel
      exact ⟨h.1, Nat.le_trans (Nat.le_succ next) h.2.1, h.2.2⟩

/-- Adding a fresh in-range part hash preserves the full invariant, with the
part recorded as done. -/
theorem HashCalc_add_inv (hs : List ByteL) (done : Nat → Prop) (hc : HashCalc)
    (k : Nat) (hinv : HCInv hs done hc) (hk : k < hs.length) (hkd : ¬ done k) :
    HCInv hs (fun i => i = k ∨ done i) (hc.add k (hs.getD k [])) := by
  obtain ⟨⟨h1, h2, h3, h4, h5⟩, hnd, hhip⟩ := hinv
  have hknext : hc.next ≤ k := by
    by_contra h
    exact hkd (h1 k (by omega))
  have hknotin : k ∉ hc.pending.map Prod.fst := by
    intro hmem
    obtain ⟨p, hp, hpk⟩ := List.mem_map.1 hmem
    exact hkd (hpk ▸ (h4 p hp).1)
  have hcore0 : HCCore hs (fun i => i = k ∨ done i) hc.next
      ((k, hs.getD k []) :: hc.pending) hc.acc := by
    refine ⟨fun i hi => Or.inr (h1 i hi), h2, ?_, ?_, ?_⟩
    · simp only [List.map_cons]
      exact List.nodup_cons.2 ⟨hknotin, h3⟩
    · intro p hp
      rcases List.mem_cons.1 hp with h | h
      · subst h
        exact ⟨Or.inl rfl, hknext, hk, rfl⟩
      · have hcond := h4 p h
        exact ⟨Or.inr hcond.1, hcond.2.1, hcond.2.2.1, hcond.2.2.2⟩
    · intro j hj hnj
      rcases hj with h | h
      · subst h
        simp
      · simp only [List.map_cons, List.mem_cons]
        exact Or.inr (h5 j h hnj)
  have hd := drain_core hs (fun i => i = k ∨ done i)
    ((k, hs.getD k []) :: hc.pending).length hc.next
    ((k, hs.getD k []) :: hc.pending) hc.acc hcore0 (Nat.le_refl _)
  have hnext : (hc.add k (hs.getD k [])).next =
      (drainLoop ((k, hs.getD k []) :: hc.pending).length hc.next
        ((k, hs.getD k []) :: hc.pending) hc.acc).1 := rfl
  have hpend : (hc.add k (hs.getD k [])).pending =
      (drainLoop ((k, hs.getD k []) :: hc.pending).length hc.next
        ((k, hs.getD k []) :: hc.pending) hc.acc).2.1 := rfl
  have hacc : (hc.add k (hs.getD k [])).acc =
      (drainLoop ((k, hs.getD k []) :: hc.pending).length hc.next
        ((k, hs.getD k []) :: hc.pending) hc.acc).2.2 := rfl
  have hhp : (hc.add k (hs.getD k [])).hipart =
      (if hc.next < (drainLoop ((k, hs.getD k []) :: hc.pending).length hc.next
        ((k, hs.getD k []) :: hc.pending) hc.acc).1
       then ((drainLoop ((k, hs.getD k []) :: hc.pending).length hc.next
        ((k, hs.getD k []) :: hc.pending) hc.acc).1 : Int)
       else hc.hipart) := rfl
  refine ⟨?_, ?_, ?_⟩
  · rw [hnext, hpend, hacc]
    exact hd.1
  · rw [hnext]
    intro hdone
    have h5' := hd.1.2.2.2.2
    exact hd.2.2 (h5' _ hdone (Nat.le_refl _))
  · rw [hnext, hhp]
    by_cases hlt : hc.next < (drainLoop ((k, hs.getD k []) :: hc.pending).length hc.next
        ((k, hs.getD k []) :: hc.pending) hc.acc).1
    · rw [if_pos hlt, if_neg (by omega)]
    · have heq : (drainLoop ((k, hs.getD k []) :: hc.pending).length hc.next
          ((k, hs.getD k []) :: hc.pending) hc.acc).1 = hc.next := by
        have := hd.2.1
        omega
      rw [if_neg hlt, heq, hhip]

/-- The invariant only inspects `done` through membership. -/
theorem HCInv_congr (hs : List ByteL) {d1 d2 : Nat → Prop}
    (h : ∀ i, d1 i ↔ d2 i) {hc : HashCalc} (hinv : HCInv hs d1 hc) :
    HCInv hs d2 hc := by
  have heq : d1 = d2 := funext fun i => propext (h i)
  exact heq ▸ hinv

/-- Folding a batch of fresh in-range part hashes, in any order, preserves
the invariant with all their indices recorded done. -/
theorem hashCalc_fold_inv (hs : List ByteL) :
    ∀ (l : List (Nat × ByteL)) (done : Nat → Prop) (hc : HashCalc),
      HCInv hs done hc →
      (∀ p ∈ l, p.1 < hs.length ∧ p.2 = hs.getD p.1 [] ∧ ¬ done p.1) →
      (l.map Prod.fst).Nodup →
      HCInv hs (fun i => i ∈ l.map Prod.fst ∨ done i)
        (l.foldl (fun hc p => hc.add p.1 p.2) hc) := by
  intro l
  induction l with
  | nil =>
    intro done hc hinv _ _
    exact HCInv_congr hs (fun i => by simp) hinv
  | cons p rest ih =>
    intro done hc hinv hmem hnd
    obtain ⟨k, v⟩ := p
    have hk := hmem (k, v) (List.mem_cons_self _ _)
    have hv : v = hs.getD k [] := hk.2.1
    have hnd0 : (k :: rest.map Prod.fst).Nodup := by
      rw [List.map_cons] at hnd
      exact hnd
    have hknotin : k ∉ rest.map Prod.fst := (List.nodup_cons.1 hnd0).1
    have hadd := HashCalc_add_inv hs done hc k hinv hk.1 hk.2.2
    have hrest := ih (fun i => i = k ∨ done i) (hc.add k (hs.getD k []))
      hadd
      (by
        intro q hq
        have hqm := hmem q (List.mem_cons_of_mem _ hq)
        refine ⟨hqm.1, hqm.2.1, ?_⟩
        rintro (h | h)
        · exact hknotin (h ▸ List.mem_map_of_mem Prod.fst hq)
        · exact hqm.2.2 h)
      ((List.nodup_cons.1 hnd0).2)
    have : (fun i => i ∈ rest.map Prod.fst ∨ (i = k ∨ done i)) =
        (fun i => i ∈ ((k, v) :: rest).map Prod.fst ∨ done i) := by
      funext i
      simp only [List.map_cons, List.mem_cons]
      rw [eq_iff_iff]
      tauto
    rw [List.foldl_cons, hv]
    exact this ▸ hrest

/-- Membership in `indexFrom`: indices run from `n` and values are the list
entries. -/
theorem mem_indexFrom {α : Type _} (d : α) :
    ∀ (l : List α) (n : Nat) (p : Nat × α), p ∈ indexFrom n l →
      n ≤ p.1 ∧ p.1 < n + l.length ∧ p.2 = l.getD (p.1 - n) d := by
  intro l
  induction l with
  | nil => intro n p hp; simp [indexFrom] at hp
  | cons a rest ih =>
    intro n p hp
    rcases List.mem_cons.1 hp with h | h
    · subst h
      simp
    · have := ih (n + 1) p h
      refine ⟨by omega, by simp; omega, ?_⟩
      have harith : p.1 - n = (p.1 - (n + 1)) + 1 := by omega
      rw [harith, List.getD_cons_succ]
      exact this.2.2

/-- The keys of `indexFrom n l` are `n, n+1, …` — `range' n l.length`. -/
theorem map_fst_indexFrom {α : Type _} :
    ∀ (l : List α) (n : Nat),
      (indexFrom n l).map Prod.fst = List.range' n l.length := by
  intro l
  induction l with
  | nil => intro n; simp [indexFrom]
  | cons a rest ih =>
    intro n
    simp only [indexFrom, List.map_cons, List.length_cons, List.range'_succ]
    rw [ih (n + 1)]

/-- Shifting 1-based numbering down to 0-based while mapping the values. -/
theorem indexFrom_shift_map {α β : Type _} (f : α → β) :
    ∀ (l : List α) (n : Nat),
      (indexFrom (n + 1) l).map (fun q => (q.1 - 1, f q.2)) =
        indexFrom n (l.map f) := by
  intro l
  induction l with
  | nil => intro n; simp [indexFrom]
  | cons a rest ih =>
    intro n
    simp only [indexFrom, List.map_cons]
    rw [ih (n + 1)]
    simp

/-- Second components of `indexFrom` are the list itself (mapped). -/
theorem indexFrom_map_snd {α β : Type _} (g : α → β) :
    ∀ (l : List α) (n : Nat),
      (indexFrom n l).map (fun q => g q.2) = l.map g := by
  intro l
  induction l with
  | nil => intro n; simp [indexFrom]
  | cons a rest ih =>
    intro n
    simp only [indexFrom, List.map_cons]
    rw [ih (n + 1)]

theorem length_indexFrom {α : Type _} :
    ∀ (l : List α) (n : Nat), (indexFrom n l).length = l.length := by
  intro l
  induction l with
  | nil => intro n; rfl
  | cons a rest ih =>
    intro n
    simp only [indexFrom, List.length_cons, ih (n + 1)]

/-- Folding the part hashes `hs` (indexed from 0) into a fresh `hashCalc`
in **any** arrival order ends in the same state: everything folded in
ascending index order, nothing pending, and the high-water mark at
`hs.length` (or `-1` untouched when there are no parts). -/
theorem hashCalc_fold_perm (hs : List ByteL) (l : List (Nat × ByteL))
    (hl : l.Perm (indexFrom 0 hs)) :
    (l.foldl (fun hc p => hc.add p.1 p.2) newHashCalc).acc = aggInput hs ∧
    (l.foldl (fun hc p => hc.add p.1 p.2) newHashCalc).next = hs.length ∧
    (l.foldl (fun hc p => hc.add p.1 p.2) newHashCalc).pending = [] ∧
    (l.foldl (fun hc p => hc.add p.1 p.2) newHashCalc).hipart =
      (if hs.length = 0 then (-1 : Int) else (hs.length : Int)) := by
  have hinit : HCInv hs (fun _ => False) newHashCalc := by
    refine ⟨⟨?_, ?_, ?_, ?_, ?_⟩, ?_, ?_⟩ <;> simp [newHashCalc, aggInput]
  have hmem : ∀ p ∈ l, p.1 < hs.length ∧ p.2 = hs.getD p.1 [] ∧ ¬ False := by
    intro p hp
    have hp' := hl.mem_iff.1 hp
    have h := mem_indexFrom ([] : ByteL) hs 0 p hp'
    exact ⟨by omega, by simpa using h.2.2, not_false⟩
  have hperm_fst : (l.map Prod.fst).Perm (List.range' 0 hs.length) := by
    have := hl.map Prod.fst
    rwa [map_fst_indexFrom] at this
  have hnd : (l.map Prod.fst).Nodup :=
    hperm_fst.nodup_iff.2 (List.nodup_range' 0 hs.length)
  have h := hashCalc_fold_inv hs l (fun _ => False) newHashCalc hinit hmem hnd
  have hdone : ∀ i, (i ∈ l.map Prod.fst ∨ False) ↔ i < hs.length := by
    intro i
    rw [or_false, hperm_fst.mem_iff, List.mem_range'_1]
    omega
  have h' := HCInv_congr hs hdone h
  obtain ⟨⟨h1, h2, h3, h4, h5⟩, hnd2, hhip⟩ := h'
  set hc := l.foldl (fun hc p => hc.add p.1 p.2) newHashCalc with hhc
  have hnexteq : hc.next = hs.length := by
    have hub : hc.next ≤ hs.length := by
      by_contra hgt
      exact absurd (h1 hs.length (by omega)) (by omega)
    omega
  refine ⟨?_, hnexteq, ?_, ?_⟩
  · rw [h2, hnexteq, List.take_length]
  · apply List.eq_nil_iff_forall_not_mem.2
    intro p hp
    have := h4 p hp
    omega
  · rw [hhip, hnexteq]

/-- The writer fold's `hashCalc` component is the fold of the shifted adds. -/
theorem foldl_writeStep_metaHash (sha : ByteL → ByteL) :
    ∀ (l : List (Nat × Part)) (w : S3WriterSt),
      (l.foldl (writeStep sha) w).metaHash =
        l.foldl (fun hc q => hc.add (q.1 - 1) (sha q.2.raw)) w.metaHash := by
  intro l
  induction l with
  | nil => intro w; rfl
  | cons q rest ih =>
    intro w
    simp only [List.foldl_cons]
    rw [ih (writeStep sha w q)]
    rfl

/-- Totals accumulated by the writer fold. -/
theorem foldl_writeStep_md (sha : ByteL → ByteL) :
    ∀ (l : List (Nat × Part)) (w : S3WriterSt),
      (l.foldl (writeStep sha) w).md.uncompressedBytes =
        w.md.uncompressedBytes + (l.map (fun q => (q.2.raw.length : Int))).sum ∧
      (l.foldl (writeStep sha) w).md.itemCount =
        w.md.itemCount + (l.map (fun q => (q.2.items : Int))).sum ∧
      (l.foldl (writeStep sha) w).md.partCount =
        w.md.partCount + l.length := by
  intro l
  induction l with
  | nil => intro w; simp
  | cons q rest ih =>
    intro w
    simp only [List.foldl_cons, List.map_cons, List.sum_cons, List.length_cons]
    have h := ih (writeStep sha w q)
    have h1 : (writeStep sha w q).md.uncompressedBytes =
        w.md.uncompressedBytes + (q.2.raw.length : Int) := rfl
    have h2 : (writeStep sha w q).md.itemCount =
        w.md.itemCount + (q.2.items : Int) := rfl
    have h3 : (writeStep sha w q).md.partCount = w.md.partCount + 1 := rfl
    refine ⟨?_, ?_, ?_⟩
    · rw [h.1, h1]; ring
    · rw [h.2.1, h2]; ring
    · rw [h.2.2, h3]; push_cast; ring

/-- After at least one part completion, `Hash` and `LastHashed` are exactly
the final `hashCalc` value. -/
theorem foldl_writeStep_hash (sha : ByteL → ByteL) :
    ∀ (l : List (Nat × Part)) (w : S3WriterSt), l ≠ [] →
      (l.foldl (writeStep sha) w).md.hash =
        hexBytes (sha (l.foldl (fun hc q => hc.add (q.1 - 1) (sha q.2.raw)) w.metaHash).acc) ∧
      (l.foldl (writeStep sha) w).md.lastHashed =
        (l.foldl (fun hc q => hc.add (q.1 - 1) (sha q.2.raw)) w.metaHash).hipart := by
  intro l
  induction l with
  | nil => intro w h; exact absurd rfl h
  | cons q rest ih =>
    intro w _
    cases hr : rest with
    | nil =>
      subst hr
      simp only [List.foldl_cons, List.foldl_nil]
      constructor
      · rfl
      · rfl
    | cons a b =>
      have hne : rest ≠ [] := by simp [hr]
      rw [← hr]
      simp only [List.foldl_cons]
      have h := ih (writeStep sha w q) hne
      rw [h.1, h.2]
      have hm : (writeStep sha w q).metaHash =
          w.metaHash.add (q.1 - 1) (sha q.2.raw) := rfl
      rw [hm]
      exact ⟨rfl, rfl⟩

/-- C2: the reorder buffer makes the aggregate hash independent of the
order in which `completePart` calls arrive: for any list of parts and any
permutation of their (1-based) completions, the final metadata `Hash` is
the hash of the newline-terminated part hashes in ascending part order —
folded strictly ascending, out-of-order arrivals held until the gap fills —
and once all parts have been folded `LastHashed = PartCount`. -/
theorem aggregate_hash_order_independent (sha256 : ByteL → ByteL)
    (seed : Metadata) (parts : List Part) (arrivals : List (Nat × Part))
    (harr : arrivals.Perm (numberParts parts)) (hseed : seed.lastHashed = 0) :
    (runWriter sha256 seed arrivals).md.hash =
      (if parts.length = 0 then seed.hash
       else hexBytes (sha256 (aggInput (parts.map (fun p => sha256 p.raw))))) ∧
    (runWriter sha256 seed arrivals).md.lastHashed =
      (runWriter sha256 seed arrivals).md.partCount := by
  have hlen : arrivals.length = parts.length := by
    rw [harr.length_eq]
    exact length_indexFrom parts 1
  by_cases hnil : parts = []
  · subst hnil
    have harr' : arrivals = [] := List.length_eq_zero.1 (by simpa using hlen)
    subst harr'
    refine ⟨by simp [runWriter, newS3Writer], ?_⟩
    show seed.lastHashed = (runWriter sha256 seed []).md.partCount
    rw [hseed]
    rfl
  · have hanil : arrivals ≠ [] := by
      intro h
      exact hnil (List.length_eq_zero.1 (by rw [← hlen, h]; rfl))
    have hmapped : (arrivals.map (fun q => (q.1 - 1, sha256 q.2.raw))).Perm
        (indexFrom 0 (parts.map (fun p => sha256 p.raw))) := by
      have h := harr.map (fun q => (q.1 - 1, sha256 q.2.raw))
      rwa [show numberParts parts = indexFrom 1 parts from rfl,
        indexFrom_shift_map (fun p => sha256 p.raw) parts 0] at h
    have hfold : (arrivals.foldl (fun hc q => hc.add (q.1 - 1) (sha256 q.2.raw)) newHashCalc).acc =
          aggInput (parts.map (fun p => sha256 p.raw)) ∧
        (arrivals.foldl (fun hc q => hc.add (q.1 - 1) (sha256 q.2.raw)) newHashCalc).hipart =
          (if (parts.map (fun p => sha256 p.raw)).length = 0 then (-1 : Int)
           else ((parts.map (fun p => sha256 p.raw)).length : Int)) := by
      have h := hashCalc_fold_perm (parts.map (fun p => sha256 p.raw))
        (arrivals.map (fun q => (q.1 - 1, sha256 q.2.raw))) hmapped
      rw [List.foldl_map] at h
      exact ⟨h.1, h.2.2.2⟩
    have hh := foldl_writeStep_hash sha256 arrivals (newS3Writer seed) hanil
    have hmd := foldl_writeStep_md sha256 arrivals (newS3Writer seed)
    have hplen : (parts.map (fun p => sha256 p.raw)).length = parts.length :=
      List.length_map _ _
    have hpne : ¬ parts.length = 0 := fun h => hnil (List.length_eq_zero.1 h)
    constructor
    · rw [if_neg hpne]
      show (arrivals.foldl (writeStep sha256) (newS3Writer seed)).md.hash = _
      rw [hh.1]
      show hexBytes (sha256 (arrivals.foldl
        (fun hc q => hc.add (q.1 - 1) (sha256 q.2.raw)) newHashCalc).acc) = _
      rw [hfold.1]
    · show (arrivals.foldl (writeStep sha256) (newS3Writer seed)).md.lastHashed =
        (arrivals.foldl (writeStep sha256) (newS3Writer seed)).md.partCount
      rw [hh.2, hmd.2.2]
      show (arrivals.foldl (fun hc q => hc.add (q.1 - 1) (sha256 q.2.raw)) newHashCalc).hipart =
        (0 : Int) + arrivals.length
      rw [hfold.2, if_neg (by omega), hplen, hlen]
      ring

/-- C2 witness: two parts completing in reverse order (2 then 1) with a
small stand-in hash function `sha l = [len l % 256]`: part hashes `[1]` and
`[2]`, aggregate input `"01\n02\n"`, metadata hash `"06"` (ASCII 48, 54),
and `LastHashed = PartCount = 2`. -/
theorem aggregate_hash_order_independent_witness :
    ([((2 : Nat), (⟨[2, 3], 1, 6⟩ : Part)), (1, ⟨[1], 1, 5⟩)].Perm
        (numberParts [⟨[1], 1, 5⟩, ⟨[2, 3], 1, 6⟩])) ∧
    (runWriter (fun l => [l.length % 256]) {}
        [(2, ⟨[2, 3], 1, 6⟩), (1, ⟨[1], 1, 5⟩)]).md.hash = [48, 54] ∧
    (runWriter (fun l => [l.length % 256]) {}
        [(2, ⟨[2, 3], 1, 6⟩), (1, ⟨[1], 1, 5⟩)]).md.lastHashed =
      (runWriter (fun l => [l.length % 256]) {}
        [(2, ⟨[2, 3], 1, 6⟩), (1, ⟨[1], 1, 5⟩)]).md.partCount := by
  have h := aggregate_hash_order_independent (fun l => [l.length % 256]) {}
    [⟨[1], 1, 5⟩, ⟨[2, 3], 1, 6⟩] [(2, ⟨[2, 3], 1, 6⟩), (1, ⟨[1], 1, 5⟩)]
    (by decide) rfl
  refine ⟨by decide, ?_, h.2⟩
  rw [h.1, if_neg (by decide)]
  decide

/-! ## C1 — S3Writer run totals and aggregate hash -/

theorem sum_natCast (l : List Nat) :
    (l.map (Nat.cast : Nat → Int)).sum = (l.sum : Int) := by
  induction l with
  | nil => simp
  | cons a rest ih =>
    simp only [List.map_cons, List.sum_cons, ih, Nat.cast_add]

/-- Per-worker conservation: with every record non-empty, the parts a worker
flushes carry exactly the bytes and the record count it received.  (The
`pending = [] → count = 0` invariant is what the tail-flush guard
`rawPendingLen > 0` needs; empty records can break it.) -/
theorem workerGo_sums (oracle : Nat → Option Nat) (tailSize : Nat) :
    ∀ (blocks : List ByteL) (idx : Nat) (pending : ByteL) (count : Nat),
      (pending = [] → count = 0) → (∀ b ∈ blocks, b ≠ []) →
      ((workerGo oracle tailSize idx pending count blocks).map
          (fun p => p.raw.length)).sum =
        pending.length + (blocks.map List.length).sum ∧
      ((workerGo oracle tailSize idx pending count blocks).map Part.items).sum =
        count + blocks.length := by
  intro blocks
  induction blocks with
  | nil =>
    intro idx pending count hpc _
    by_cases hp : pending.length > 0
    · simp [workerGo, hp]
    · have hpe : pending = [] := List.eq_nil_of_length_eq_zero (by omega)
      have hc0 := hpc hpe
      subst hpe
      subst hc0
      simp [workerGo]
  | cons b rest ih =>
    intro idx pending count hpc hb
    have hbne : b ≠ [] := hb b (List.mem_cons_self _ _)
    have hrest : ∀ x ∈ rest, x ≠ [] := fun x hx => hb x (List.mem_cons_of_mem _ hx)
    cases ho : oracle idx with
    | some c =>
      have h := ih (idx + 1) [] 0 (fun _ => rfl) hrest
      simp only [List.length_nil] at h
      simp only [workerGo, ho, List.map_cons, List.sum_cons, List.length_cons]
      rw [h.1, h.2]
      constructor
      · rw [List.length_append]
        omega
      · omega
    | none =>
      have hpc' : pending ++ b = [] → count + 1 = 0 := by
        intro h
        exact absurd (List.append_eq_nil.1 h).2 hbne
      have h := ih (idx + 1) (pending ++ b) (count + 1) hpc' hrest
      simp only [workerGo, ho, List.map_cons, List.sum_cons, List.length_cons]
      rw [h.1, h.2, List.length_append]
      omega

/-- Whole-run conservation across all workers. -/
theorem allParts_sums (feeds : List WorkerFeed)
    (hne : ∀ f ∈ feeds, ∀ b ∈ f.blocks, b ≠ []) :
    ((allParts feeds).map (fun p => p.raw.length)).sum =
      ((allBlocks feeds).map List.length).sum ∧
    ((allParts feeds).map Part.items).sum = (allBlocks feeds).length := by
  induction feeds with
  | nil => simp [allParts, allBlocks]
  | cons f rest ih =>
    have hf := workerGo_sums f.oracle f.tailSize f.blocks 0 [] 0 (fun _ => rfl)
      (hne f (List.mem_cons_self _ _))
    have hr := ih (fun g hg => hne g (List.mem_cons_of_mem _ hg))
    simp only [allParts, allBlocks, List.map_cons, List.flatten_cons,
      List.map_append, List.sum_append, List.length_append]
    simp only [allParts, allBlocks] at hr
    rw [hr.1, hr.2]
    have hf1 := hf.1
    have hf2 := hf.2
    simp only [workerRun] at *
    rw [hf1, hf2]
    simp

/-- With a non-empty part list, the run's metadata carries the canonical
ascending-order aggregate hash, and `LastHashed = PartCount = #parts`. -/
theorem runWriter_hash_canonical (sha256 : ByteL → ByteL) (seed : Metadata)
    (parts : List Part) (arrivals : List (Nat × Part))
    (harr : arrivals.Perm (numberParts parts)) (hpne : parts ≠ []) :
    (runWriter sha256 seed arrivals).md.hash =
      hexBytes (sha256 (aggInput (parts.map (fun p => sha256 p.raw)))) := by
  have hlen : arrivals.length = parts.length := by
    rw [harr.length_eq]
    exact length_indexFrom parts 1
  have hanil : arrivals ≠ [] := by
    intro h
    exact hpne (List.length_eq_zero.1 (by rw [← hlen, h]; rfl))
  have hmapped : (arrivals.map (fun q => (q.1 - 1, sha256 q.2.raw))).Perm
      (indexFrom 0 (parts.map (fun p => sha256 p.raw))) := by
    have h := harr.map (fun q => (q.1 - 1, sha256 q.2.raw))
    rwa [show numberParts parts = indexFrom 1 parts from rfl,
      indexFrom_shift_map (fun p => sha256 p.raw) parts 0] at h
  have hfold : (arrivals.foldl (fun hc q => hc.add (q.1 - 1) (sha256 q.2.raw))
        newHashCalc).acc = aggInput (parts.map (fun p => sha256 p.raw)) := by
    have h := hashCalc_fold_perm (parts.map (fun p => sha256 p.raw))
      (arrivals.map (fun q => (q.1 - 1, sha256 q.2.raw))) hmapped
    rw [List.foldl_map] at h
    exact h.1
  have hh := foldl_writeStep_hash sha256 arrivals (newS3Writer seed) hanil
  show (arrivals.foldl (writeStep sha256) (newS3Writer seed)).md.hash = _
  rw [hh.1]
  show hexBytes (sha256 (arrivals.foldl
    (fun hc q => hc.add (q.1 - 1) (sha256 q.2.raw)) newHashCalc).acc) = _
  rw [hfold]

/-- C1 (amended): for every run in which at least one record is written and
every record is non-empty — any number of workers, any flush behaviour, any
flush numbering order, any `completePart` arrival order — when `Run`
returns nil the final metadata has `UncompressedBytes` equal to the total
bytes written, `ItemCount` equal to the number of `Write` calls, and `Hash`
equal to the hex SHA-256 of the concatenation of each part's hex SHA-256 of
uncompressed bytes followed by a newline, in ascending part-number order. -/
theorem s3writer_run_totals (sha256 : ByteL → ByteL) (seed : Metadata)
    (feeds : List WorkerFeed) (parts : List Part) (arrivals : List (Nat × Part))
    (t : Nat)
    (hparts : parts.Perm (allParts feeds))
    (harr : arrivals.Perm (numberParts parts))
    (hne : ∀ f ∈ feeds, ∀ b ∈ f.blocks, b ≠ [])
    (hsome : allBlocks feeds ≠ []) :
    (finishRun (runWriter sha256 seed arrivals) t).md.uncompressedBytes =
      (((allBlocks feeds).map List.length).sum : Int) ∧
    (finishRun (runWriter sha256 seed arrivals) t).md.itemCount =
      ((allBlocks feeds).length : Int) ∧
    (finishRun (runWriter sha256 seed arrivals) t).md.hash =
      hexBytes (sha256 (aggInput (parts.map (fun p => sha256 p.raw)))) := by
  have hconserve := allParts_sums feeds hne
  have hmd := foldl_writeStep_md sha256 arrivals (newS3Writer seed)
  have hsum1 : (arrivals.map (fun q => (q.2.raw.length : Int))).sum =
      ((allParts feeds).map (fun p => (p.raw.length : Int))).sum := by
    rw [(harr.map (fun q => (q.2.raw.length : Int))).sum_eq,
      show numberParts parts = indexFrom 1 parts from rfl,
      indexFrom_map_snd (fun p => (p.raw.length : Int)) parts 1,
      (hparts.map (fun p => (p.raw.length : Int))).sum_eq]
  have hsum2 : (arrivals.map (fun q => (q.2.items : Int))).sum =
      ((allParts feeds).map (fun p => (p.items : Int))).sum := by
    rw [(harr.map (fun q => (q.2.items : Int))).sum_eq,
      show numberParts parts = indexFrom 1 parts from rfl,
      indexFrom_map_snd (fun p => (p.items : Int)) parts 1,
      (hparts.map (fun p => (p.items : Int))).sum_eq]
  have hcast1 : ((allParts feeds).map (fun p => (p.raw.length : Int))).sum =
      ((((allParts feeds).map (fun p => p.raw.length)).sum : Nat) : Int) := by
    rw [← sum_natCast, List.map_map]
    rfl
  have hcast2 : ((allParts feeds).map (fun p => (p.items : Int))).sum =
      ((((allParts feeds).map Part.items).sum : Nat) : Int) := by
    rw [← sum_natCast, List.map_map]
    rfl
  refine ⟨?_, ?_, ?_⟩
  · show (runWriter sha256 seed arrivals).md.uncompressedBytes = _
    show (arrivals.foldl (writeStep sha256) (newS3Writer seed)).md.uncompressedBytes = _
    rw [hmd.1, hsum1, hcast1, hconserve.1]
    show (0 : Int) + _ = _
    ring
  · show (runWriter sha256 seed arrivals).md.itemCount = _
    show (arrivals.foldl (writeStep sha256) (newS3Writer seed)).md.itemCount = _
    rw [hmd.2.1, hsum2, hcast2, hconserve.2]
    show (0 : Int) + _ = _
    ring
  · have hpne : parts ≠ [] := by
      intro h
      subst h
      have hap : allParts feeds = [] := List.perm_nil.1 hparts.symm
      have hlen0 : (allBlocks feeds).length = 0 := by
        rw [← hconserve.2, hap]
        rfl
      exact hsome (List.length_eq_zero.1 hlen0)
    exact runWriter_hash_canonical sha256 seed parts arrivals harr hpne

/-- C1 witness: one worker, records `[1]` and `[2,3]`, no mid-stream flush,
one tail part; with the stand-in hash `sha l = [len l % 256]` the part
digest is `[3]`, the aggregate input `"03\n"` and the metadata hash `"03"`
(ASCII 48, 51); `UncompressedBytes = 3`, `ItemCount = 2`. -/
theorem s3writer_run_totals_witness :
    (finishRun (runWriter (fun l => [l.length % 256]) {}
        [(1, ⟨[1, 2, 3], 2, 9⟩)]) 0).md.uncompressedBytes = 3 ∧
    (finishRun (runWriter (fun l => [l.length % 256]) {}
        [(1, ⟨[1, 2, 3], 2, 9⟩)]) 0).md.itemCount = 2 ∧
    (finishRun (runWriter (fun l => [l.length % 256]) {}
        [(1, ⟨[1, 2, 3], 2, 9⟩)]) 0).md.hash = [48, 51] := by
  have h := s3writer_run_totals (fun l => [l.length % 256]) {}
    [⟨fun _ => none, 9, [[1], [2, 3]]⟩] [⟨[1, 2, 3], 2, 9⟩]
    [(1, ⟨[1, 2, 3], 2, 9⟩)] 0
    (by decide) (by decide) (by decide) (by decide)
  refine ⟨?_, ?_, ?_⟩
  · rw [h.1]; decide
  · rw [h.2.1]; decide
  · rw [h.2.2]; decide

/-- C1 counterexample: two `Write` calls with **empty** blocks through one
worker.  No part is ever flushed (`rawPendingLen` stays 0, so the tail
guard skips the flush), `completePart` never runs, and `Run` still returns
nil — yet `ItemCount` is 0, not 2, and `Hash` is the seed's empty string,
not the hash of the empty concatenation (which is `"00"` for the stand-in
hash `sha l = [len l % 256]`, and a fixed non-empty hex string for real
SHA-256).  The claim needs "at least one Write, every block non-empty". -/
theorem s3writer_empty_blocks_counterexample :
    allParts [⟨fun _ => none, 0, [[], []]⟩] = [] ∧
    (allBlocks [⟨fun _ => none, 0, [[], []]⟩]).length = 2 ∧
    (finishRun (runWriter (fun l => [l.length % 256]) {} []) 0).md.itemCount = 0 ∧
    (finishRun (runWriter (fun l => [l.length % 256]) {} []) 0).md.hash = [] ∧
    hexBytes ((fun l => [l.length % 256])
      (aggInput (([] : List Part).map (fun p => (fun l => [l.length % 256]) p.raw)))) =
      [48, 48] := by
  refine ⟨by decide, by decide, by decide, by decide, by decide⟩

/-! ## C3 — item codec round trip -/


mutual

theorem toAttribute_id (v : AttrVal) : toAttribute v = v := by
  match v with
  | .B b => rfl
  | .BOOL b => rfl
  | .BS l => rfl
  | .L l => rw [toAttribute, toAttributeList_id l]
  | .M m => rw [toAttribute, toAttributeMap_id m]
  | .N n => rfl
  | .NS l => rfl
  | .NULL b => rfl
  | .S s => rfl
  | .SS l => rfl

theorem toAttributeList_id (l : List AttrVal) : toAttributeList l = l := by
  match l with
  | [] => rfl
  | v :: rest => rw [toAttributeList, toAttribute_id v, toAttributeList_id rest]

theorem toAttributeMap_id (m : List (String × AttrVal)) : toAttributeMap m = m := by
  match m with
  | [] => rfl
  | (k, v) :: rest => rw [toAttributeMap, toAttribute_id v, toAttributeMap_id rest]

end

theorem b64Inv_b64Char_all : ∀ n < 64, b64Inv (b64Char n) = some n := by decide

theorem b64Inv_b64Char (n : Nat) (h : n < 64) : b64Inv (b64Char n) = some n :=
  b64Inv_b64Char_all n h

theorem b64Char_lt (n : Nat) : b64Char n < 128 := by
  unfold b64Char
  split
  · omega
  · split
    · omega
    · split
      · omega
      · split <;> omega

theorem b64Char_ne_61 (n : Nat) : b64Char n ≠ 61 := by
  unfold b64Char
  split
  · omega
  · split
    · omega
    · split
      · omega
      · split <;> omega

theorem b64Encode_lt : ∀ (l : ByteL), ∀ c ∈ b64Encode l, c < 128
  | [], c, hc => by simp [b64Encode] at hc
  | [a], c, hc => by
    simp only [b64Encode, List.mem_cons, List.not_mem_nil, or_false] at hc
    rcases hc with h | h | h | h <;> first
      | (subst h; exact b64Char_lt _)
      | omega
  | [a, b], c, hc => by
    simp only [b64Encode, List.mem_cons, List.not_mem_nil, or_false] at hc
    rcases hc with h | h | h | h <;> first
      | (subst h; exact b64Char_lt _)
      | omega
  | a :: b :: d :: rest, c, hc => by
    simp only [b64Encode, List.mem_cons] at hc
    rcases hc with h | h | h | h | h
    · subst h; exact b64Char_lt _
    · subst h; exact b64Char_lt _
    · subst h; exact b64Char_lt _
    · subst h; exact b64Char_lt _
    · exact b64Encode_lt rest c h

theorem toNat_ofNat_lt (n : Nat) (h : n < 128) : (Char.ofNat n).toNat = n := by
  have hv : n.isValidChar := Or.inl (by omega)
  rw [Char.ofNat, dif_pos hv]
  rfl

theorem strCodes_asciiStr (l : List Nat) (h : ∀ c ∈ l, c < 128) :
    strCodes (asciiStr l) = l := by
  simp only [strCodes, asciiStr, List.map_map]
  induction l with
  | nil => rfl
  | cons a rest ih =>
    simp only [List.map_cons, Function.comp_apply]
    rw [toNat_ofNat_lt a (h a (List.mem_cons_self _ _)),
      ih (fun c hc => h c (List.mem_cons_of_mem _ hc))]

theorem b64_roundtrip : ∀ (l : ByteL), (∀ x ∈ l, x < 256) → b64Decode (b64Encode l) = some l
  | [], _ => rfl
  | [a], h => by
    have ha : a < 256 := h a (List.mem_cons_self _ _)
    show b64Decode [b64Char (a / 4), b64Char (a % 4 * 16), 61, 61] = some [a]
    simp only [b64Decode]
    rw [if_pos (by simp), b64Inv_b64Char (a / 4) (by omega),
      b64Inv_b64Char (a % 4 * 16) (by omega)]
    show some [a / 4 * 4 + a % 4 * 16 / 16] = some [a]
    congr 1
    congr 1
    omega
  | [a, b], h => by
    have ha : a < 256 := h a (List.mem_cons_self _ _)
    have hb : b < 256 := h b (List.mem_cons_of_mem _ (List.mem_cons_self _ _))
    show b64Decode [b64Char (a / 4), b64Char (a % 4 * 16 + b / 16),
      b64Char (b % 16 * 4), 61] = some [a, b]
    simp only [b64Decode]
    rw [if_neg (by simp [b64Char_ne_61]), if_pos (by simp),
      b64Inv_b64Char (a / 4) (by omega),
      b64Inv_b64Char (a % 4 * 16 + b / 16) (by omega),
      b64Inv_b64Char (b % 16 * 4) (by omega)]
    show some [a / 4 * 4 + (a % 4 * 16 + b / 16) / 16,
      (a % 4 * 16 + b / 16) % 16 * 16 + b % 16 * 4 / 4] = some [a, b]
    congr 1
    congr 1
    · omega
    · congr 1
      omega
  | a :: b :: c :: rest, h => by
    have ha : a < 256 := h a (by simp)
    have hb : b < 256 := h b (by simp)
    have hc : c < 256 := h c (by simp)
    have ih := b64_roundtrip rest (fun x hx => h x (by simp [hx]))
    show b64Decode (b64Char (a / 4) :: b64Char (a % 4 * 16 + b / 16) ::
      b64Char (b % 16 * 4 + c / 64) :: b64Char (c % 64) :: b64Encode rest) = _
    simp only [b64Decode]
    rw [if_neg (by simp [b64Char_ne_61]), if_neg (by simp [b64Char_ne_61]),
      b64Inv_b64Char (a / 4) (by omega),
      b64Inv_b64Char (a % 4 * 16 + b / 16) (by omega),
      b64Inv_b64Char (b % 16 * 4 + c / 64) (by omega),
      b64Inv_b64Char (c % 64) (by omega), ih]
    show some (_ :: _ :: _ :: rest) = some (a :: b :: c :: rest)
    congr 1
    congr 1
    · omega
    · congr 1
      · omega
      · congr 1
        omega

theorem decodeStrList_map : ∀ (l : List String), decodeStrList (l.map Json.str) = some l
  | [] => rfl
  | s :: rest => by
    show decodeStrList (Json.str s :: rest.map Json.str) = _
    simp only [decodeStrList]
    rw [decodeStrList_map rest]
    rfl

theorem decodeB64List_map : ∀ (l : List ByteL), (∀ b ∈ l, ∀ x ∈ b, x < 256) →
    decodeB64List (l.map (fun b => Json.str (asciiStr (b64Encode b)))) = some l
  | [], _ => rfl
  | b :: rest, h => by
    have hb : ∀ x ∈ b, x < 256 := h b (List.mem_cons_self _ _)
    show decodeB64List (Json.str (asciiStr (b64Encode b)) :: rest.map _) = _
    simp only [decodeB64List]
    rw [strCodes_asciiStr _ (b64Encode_lt b), b64_roundtrip b hb,
      decodeB64List_map rest (fun x hx => h x (List.mem_cons_of_mem _ hx))]
    rfl

theorem decodeVal_B (s : String) :
    decodeVal (Json.obj [(("B"), Json.str s)]) =
      (b64Decode (strCodes s)).map AttrVal.B := rfl

theorem decodeVal_BS (l : List Json) :
    decodeVal (Json.obj [(("BS"), Json.arr l)]) =
      (decodeB64List l).map AttrVal.BS := rfl

theorem decodeVal_L (l : List Json) :
    decodeVal (Json.obj [(("L"), Json.arr l)]) =
      (decodeJList l).map AttrVal.L := rfl

theorem decodeVal_M (kvs : List (String × Json)) :
    decodeVal (Json.obj [(("M"), Json.obj kvs)]) =
      (decodeJMap kvs).map AttrVal.M := rfl

theorem decodeVal_NS (l : List Json) :
    decodeVal (Json.obj [(("NS"), Json.arr l)]) =
      (decodeStrList l).map AttrVal.NS := rfl

theorem decodeVal_SS (l : List Json) :
    decodeVal (Json.obj [(("SS"), Json.arr l)]) =
      (decodeStrList l).map AttrVal.SS := rfl

theorem decodeJList_cons (j : Json) (rest : List Json) :
    decodeJList (j :: rest) =
      (decodeVal j).bind (fun x => (decodeJList rest).bind (fun xs => some (x :: xs))) := rfl

theorem decodeJMap_cons (k : String) (j : Json) (rest : List (String × Json)) :
    decodeJMap ((k, j) :: rest) =
      (decodeVal j).bind (fun x => (decodeJMap rest).bind (fun xs => some ((k, x) :: xs))) := rfl

mutual

theorem decode_marshal : ∀ (v : AttrVal), wfVal v = true → decodeVal (marshalVal v) = some v
  | .B b, h => by
    simp only [wfVal, Bool.and_eq_true, Bool.not_eq_true', List.all_eq_true,
      decide_eq_true_eq] at h
    rw [show marshalVal (.B b) = Json.obj (if b.isEmpty then []
      else [(("B"), Json.str (asciiStr (b64Encode b)))]) from rfl, h.1]
    rw [if_neg (by simp), decodeVal_B, strCodes_asciiStr _ (b64Encode_lt b),
      b64_roundtrip b h.2]
    rfl
  | .BOOL b, _ => rfl
  | .BS l, h => by
    simp only [wfVal, Bool.and_eq_true, Bool.not_eq_true', List.all_eq_true,
      decide_eq_true_eq] at h
    rw [show marshalVal (.BS l) = Json.obj (if l.isEmpty then []
      else [(("BS"), Json.arr (l.map (fun b => Json.str (asciiStr (b64Encode b)))))]) from rfl, h.1]
    rw [if_neg (by simp), decodeVal_BS, decodeB64List_map l h.2]
    rfl
  | .L l, h => by
    simp only [wfVal, Bool.and_eq_true, Bool.not_eq_true'] at h
    rw [show marshalVal (.L l) = Json.obj (if l.isEmpty then []
      else [(("L"), Json.arr (marshalJList l))]) from rfl, h.1]
    rw [if_neg (by simp), decodeVal_L, decode_marshal_list l h.2]
    rfl
  | .M m, h => by
    simp only [wfVal, Bool.and_eq_true, Bool.not_eq_true'] at h
    rw [show marshalVal (.M m) = Json.obj (if m.isEmpty then []
      else [(("M"), Json.obj (marshalJMap m))]) from rfl, h.1]
    rw [if_neg (by simp), decodeVal_M, decode_marshal_map m h.2]
    rfl
  | .N n, _ => rfl
  | .NS l, h => by
    simp only [wfVal, Bool.not_eq_true'] at h
    rw [show marshalVal (.NS l) = Json.obj (if l.isEmpty then []
      else [(("NS"), Json.arr (l.map Json.str))]) from rfl, h]
    rw [if_neg (by simp), decodeVal_NS, decodeStrList_map l]
    rfl
  | .NULL b, _ => rfl
  | .S s, _ => rfl
  | .SS l, h => by
    simp only [wfVal, Bool.not_eq_true'] at h
    rw [show marshalVal (.SS l) = Json.obj (if l.isEmpty then []
      else [(("SS"), Json.arr (l.map Json.str))]) from rfl, h]
    rw [if_neg (by simp), decodeVal_SS, decodeStrList_map l]
    rfl

theorem decode_marshal_list : ∀ (l : List AttrVal), wfList l = true →
    decodeJList (marshalJList l) = some l
  | [], _ => rfl
  | v :: rest, h => by
    simp only [wfList, Bool.and_eq_true] at h
    rw [show marshalJList (v :: rest) = marshalVal v :: marshalJList rest from rfl,
      decodeJList_cons, decode_marshal v h.1, decode_marshal_list rest h.2]
    rfl

theorem decode_marshal_map : ∀ (m : List (String × AttrVal)), wfMap m = true →
    decodeJMap (marshalJMap m) = some m
  | [], _ => rfl
  | (k, v) :: rest, h => by
    simp only [wfMap, Bool.and_eq_true] at h
    rw [show marshalJMap ((k, v) :: rest) = (k, marshalVal v) :: marshalJMap rest from rfl,
      decodeJMap_cons, decode_marshal v h.1, decode_marshal_map rest h.2]
    rfl

end

/-- C3 (amended): encoding an item with `SimpleEncoder.WriteItem` and
decoding the result with `SimpleDecoder.ReadItem` yields the original item
for every item in which each value inhabits exactly one of the ten
variants, **provided** no inhabited collection variant (binary, sets, list,
map) is empty: `omitempty` drops an empty collection field entirely, which
does not survive the round trip. -/
theorem item_roundtrip (item : Item) (h : wfItem item = true) :
    readItem (writeItem item) = some item := by
  induction item with
  | nil => rfl
  | cons kv rest ih =>
    obtain ⟨k, v⟩ := kv
    simp only [wfItem, List.all_cons, Bool.and_eq_true] at h
    rw [show writeItem ((k, v) :: rest) = Json.obj ((k, marshalVal (toAttribute v)) ::
      rest.map (fun kv => (kv.1, marshalVal (toAttribute kv.2)))) from rfl]
    rw [show readItem (Json.obj ((k, marshalVal (toAttribute v)) ::
        rest.map (fun kv => (kv.1, marshalVal (toAttribute kv.2))))) =
      decodeJMap ((k, marshalVal (toAttribute v)) ::
        rest.map (fun kv => (kv.1, marshalVal (toAttribute kv.2)))) from rfl]
    rw [decodeJMap_cons, toAttribute_id v, decode_marshal v h.1]
    have hr : decodeJMap (rest.map (fun kv => (kv.1, marshalVal (toAttribute kv.2)))) =
        some rest := ih h.2
    rw [hr]
    rfl

/-- C3 witness: a ten-attribute item exercising every variant round-trips. -/
theorem item_roundtrip_witness :
    wfItem [(("a"), AttrVal.S ("x")), (("b"), AttrVal.N ("12")),
      (("c"), AttrVal.B [255, 0]), (("d"), AttrVal.BOOL false),
      (("e"), AttrVal.NULL true), (("f"), AttrVal.SS [("p"), ("q")]),
      (("g"), AttrVal.NS [("1"), ("2")]), (("h"), AttrVal.BS [[1], [2]]),
      (("i"), AttrVal.L [AttrVal.S ("y"), AttrVal.NULL true]),
      (("j"), AttrVal.M [(("k"), AttrVal.N ("0"))])] = true ∧
    readItem (writeItem [(("a"), AttrVal.S ("x")), (("b"), AttrVal.N ("12")),
      (("c"), AttrVal.B [255, 0]), (("d"), AttrVal.BOOL false),
      (("e"), AttrVal.NULL true), (("f"), AttrVal.SS [("p"), ("q")]),
      (("g"), AttrVal.NS [("1"), ("2")]), (("h"), AttrVal.BS [[1], [2]]),
      (("i"), AttrVal.L [AttrVal.S ("y"), AttrVal.NULL true]),
      (("j"), AttrVal.M [(("k"), AttrVal.N ("0"))])]) =
    some [(("a"), AttrVal.S ("x")), (("b"), AttrVal.N ("12")),
      (("c"), AttrVal.B [255, 0]), (("d"), AttrVal.BOOL false),
      (("e"), AttrVal.NULL true), (("f"), AttrVal.SS [("p"), ("q")]),
      (("g"), AttrVal.NS [("1"), ("2")]), (("h"), AttrVal.BS [[1], [2]]),
      (("i"), AttrVal.L [AttrVal.S ("y"), AttrVal.NULL true]),
      (("j"), AttrVal.M [(("k"), AttrVal.N ("0"))])] := by
  refine ⟨by decide, item_roundtrip _ (by decide)⟩

/-- C3 counterexample: the item `{"a": {L: []}}` — an empty list value,
which the claim explicitly allows ("lists and maps may be empty") — encodes
to `{"a":{}}` because of `json:",omitempty"`, and decodes to an attribute
value with **no** variant inhabited (`none` in the one-variant model; the
Go decode yields an all-nil `AttributeValue`), not the original item. -/
theorem item_roundtrip_empty_list_counterexample :
    readItem (writeItem [(("a"), AttrVal.L [])]) = none ∧
    readItem (writeItem [(("a"), AttrVal.L [])]) ≠
      some [(("a"), AttrVal.L [])] := by
  refine ⟨rfl, ?_⟩
  intro h
  have h0 : readItem (writeItem [(("a"), AttrVal.L [])]) = none := rfl
  rw [h0] at h
  exact Option.noConfusion h

end Dyndump

